import Mathlib

/-!
# Verification of the PathFinder repository (src/main.py)

This file contains a shallow embedding of the two algorithmic components of
the repository:

* `MazeGenerator.generate` (randomized depth-first backtracking maze carving,
  src/main.py lines 28-62), embedded as `mazeStep` / `mazeRun`.  The mutable
  `self.grid` (a width×height array of 0/1 values) is represented by the
  finite set `opened` of its 0-cells; `random.shuffle(self.directions)`
  (an in-place Fisher-Yates shuffle driven by the seeded global RNG) is
  represented by `shuffleList` applied to a per-iteration value of an
  arbitrary seed-determined stream `rng : Nat → Nat`.

* `PathFinder.astar` (A* search with Manhattan heuristic and lazy-deletion
  binary heap, src/main.py lines 64-116), embedded as `relaxOne` /
  `astarLoop` / `reconLoop` / `astar`.  Python dicts `came_from` and
  `cost_so_far` are association lists (`Dict`) where insertion shadows
  (newest binding wins, as a dict overwrite); the `heapq` frontier is a list
  whose pop removes the minimum under Python's lexicographic tuple order on
  `(priority, (x, y))` (`heapPop`); the `while` loops, which terminate for
  every input, are run with explicit fuel that is proved sufficient.

Cells are pairs of integers (Python allows arbitrary int coordinates for
`start`/`end`).  All loops are embedded with `visualize=True`, so that the
full snapshot sequence yielded by the generator is modelled.
-/

/-- A grid cell: integer coordinate pair `(x, y)`, exactly as the Python
tuples used throughout src/main.py. -/
abbrev Cell := Int × Int

/-- The four unit directions scanned by `PathFinder.astar`
(src/main.py line 87): `[(-1,0), (1,0), (0,-1), (0,1)]`. -/
def nbrDirs : List Cell := [(-1, 0), (1, 0), (0, -1), (0, 1)]

/-- The four stride-2 directions of `MazeGenerator.__init__`
(src/main.py line 35): `[(-2, 0), (2, 0), (0, -2), (0, 2)]`. -/
def mazeDirs : List Cell := [(-2, 0), (2, 0), (0, -2), (0, 2)]

/-- `PathFinder.heuristic` (src/main.py lines 67-70):
Manhattan distance `abs(a[0]-b[0]) + abs(a[1]-b[1])`. -/
def heuristic (a b : Cell) : Nat := (a.1 - b.1).natAbs + (a.2 - b.2).natAbs

/-- Two cells are 4-adjacent: `b` is obtained from `a` by one of the four
unit moves of the search. -/
def unitAdj (a b : Cell) : Prop := (b.1 - a.1, b.2 - a.2) ∈ nbrDirs

instance (a b : Cell) : Decidable (unitAdj a b) := by unfold unitAdj; infer_instance

/-! ## Grids

`PathFinder.astar` receives the grid as a list of rows of 0/1 integers and
reads `len(grid)`, `len(grid[0])` and `grid[ny][nx]`. -/

/-- The grid type consumed by the pathfinder: a list of rows of cell values
(`0` = Open, `1` = Wall), exactly the `list[list[int]]` of the source. -/
abbrev Grid := List (List Nat)

/-- `len(grid[0])`: the width used by the bounds check of src/main.py line 89. -/
def width (g : Grid) : Nat := (g.headD []).length

/-- The bounds check of src/main.py line 89:
`0 <= nx < len(grid[0]) and 0 <= ny < len(grid)`. -/
def inBounds (g : Grid) (c : Cell) : Bool :=
  decide (0 ≤ c.1 ∧ c.1 < (width g : Int) ∧ 0 ≤ c.2 ∧ c.2 < (g.length : Int))

/-- `grid[ny][nx]` as an optional value (the source only evaluates it after
the bounds check succeeds). -/
def cellVal (g : Grid) (c : Cell) : Option Nat :=
  (g.get? c.2.toNat).bind fun row => row.get? c.1.toNat

/-- The test of src/main.py lines 89-90: the cell is in bounds and
`grid[ny][nx] == 0`. -/
def isOpenIn (g : Grid) (c : Cell) : Bool := inBounds g c && (cellVal g c == some 0)

/-- A well-formed rectangular, non-empty grid: every row has length
`len(grid[0])`.  This is the shape every grid built by `MazeGenerator` has,
and the shape under which the Python row indexing never raises. -/
def RectGrid (g : Grid) : Prop := g ≠ [] ∧ ∀ row ∈ g, row.length = width g

/-! ## Walks and graph distance in the Open-cell subgraph -/

/-- `WalkN g a b n`: there is a walk of `n` unit steps from `a` to `b`
through Open cells of `g` (both endpoints Open). -/
inductive WalkN (g : Grid) : Cell → Cell → Nat → Prop
  | refl (a : Cell) : isOpenIn g a = true → WalkN g a a 0
  | tail {a b c : Cell} {n : Nat} :
      WalkN g a b n → unitAdj b c → isOpenIn g c = true → WalkN g a c (n + 1)

/-- `b` is reachable from `a` within the 4-connected Open-cell subgraph. -/
def ReachableIn (g : Grid) (a b : Cell) : Prop := ∃ n, WalkN g a b n

/-- `k` is the breadth-first shortest-path distance (number of unit moves)
from `a` to `b` over Open cells: some walk attains it and no walk is
shorter. -/
def IsDist (g : Grid) (a b : Cell) (k : Nat) : Prop :=
  WalkN g a b k ∧ ∀ j, WalkN g a b j → k ≤ j

/-! ## Python dicts as association lists -/

/-- A Python dict keyed by cells.  Insertion conses; lookup takes the newest
binding, so insertion behaves as the dict overwrite of the source. -/
abbrev Dict (β : Type) := List (Cell × β)

/-- Dict lookup (`d[k]` / `d.get(k)`): first binding wins. -/
def dlookup {β : Type} (c : Cell) : Dict β → Option β
  | [] => none
  | (k, v) :: rest => if k = c then some v else dlookup c rest

/-- Dict store `d[k] = v`. -/
def dinsert {β : Type} (c : Cell) (v : β) (d : Dict β) : Dict β := (c, v) :: d

/-- The key set of a dict. -/
def dkeys {β : Type} (d : Dict β) : Finset Cell := (d.map Prod.fst).toFinset

/-! ## The heapq frontier

Python's `heapq.heappop` removes the least element of the heap under the
built-in tuple order, which on `(priority, (x, y))` entries is lexicographic
on `(priority, x, y)`.  The heap's internal array layout is not observable
through pops, so the frontier is embedded as a plain list together with a
pop operation that removes the least entry under that order. -/

/-- Python's tuple order on frontier entries `(priority, (x, y))`:
lexicographic on `(priority, x, y)`. -/
def entryLe (a b : Nat × Cell) : Bool :=
  decide (a.1 < b.1 ∨ (a.1 = b.1 ∧ (a.2.1 < b.2.1 ∨ (a.2.1 = b.2.1 ∧ a.2.2 ≤ b.2.2))))

/-- The least entry of a frontier list under `entryLe`. -/
def minEntry : List (Nat × Cell) → Option (Nat × Cell)
  | [] => none
  | e :: rest =>
    match minEntry rest with
    | none => some e
    | some m => if entryLe e m then some e else some m

/-- `heapq.heappop`: remove and return the least entry (`none` on an empty
heap; the search loop only pops while the frontier is non-empty). -/
def heapPop (l : List (Nat × Cell)) : Option ((Nat × Cell) × List (Nat × Cell)) :=
  match minEntry l with
  | none => none
  | some m => some (m, l.erase m)

/-! ## The A* search state and loop -/

/-- One yielded snapshot `(visited.copy(), frontier.copy(), path)` of
`PathFinder.astar` (src/main.py lines 101, 113, 116). -/
structure Snap where
  visited : Finset Cell
  frontier : List (Nat × Cell)
  path : Option (List Cell)
deriving DecidableEq

/-- The search state of one `astar` invocation.  The input grid is part of
the state so that the frame property (the search never writes it) is a
statement about the embedding. -/
structure AState where
  grid : Grid
  frontier : List (Nat × Cell)
  came_from : Dict (Option Cell)
  cost_so_far : Dict Nat
  visited : Finset Cell
  snaps : List Snap

/-- The improvement test of src/main.py line 93:
`neighbor not in cost_so_far or new_cost < cost_so_far[neighbor]`. -/
def improves (cost : Dict Nat) (n : Cell) (nc : Nat) : Bool :=
  match dlookup n cost with
  | none => true
  | some c0 => decide (nc < c0)

/-- The body of the `for dx, dy in [...]` loop of src/main.py lines 87-97 for
a single direction `d`.  `none` models the `KeyError` Python would raise if
`cost_so_far[current]` were read with `current` absent (the invariants below
show this never happens). -/
def relaxOne (endC current : Cell) (s : AState) (d : Cell) : Option AState :=
  let n : Cell := (current.1 + d.1, current.2 + d.2)
  if isOpenIn s.grid n then
    match dlookup current s.cost_so_far with
    | none => none
    | some cc =>
      if improves s.cost_so_far n (cc + 1) then
        some { s with
          cost_so_far := dinsert n (cc + 1) s.cost_so_far,
          frontier := (cc + 1 + heuristic endC n, n) :: s.frontier,
          came_from := dinsert n (some current) s.came_from }
      else some s
  else some s

/-- The whole neighbor loop of src/main.py lines 87-97. -/
def relaxAll (endC current : Cell) (s : AState) : Option AState :=
  List.foldlM (fun st d => relaxOne endC current st d) s nbrDirs

/-- The search loop `while frontier:` of src/main.py lines 81-101, with
explicit fuel (`none` = fuel exhausted or `KeyError`; both are proved not to
occur for the fuel chosen in `astar`).  Each iteration pops the least
frontier entry, breaks if it is `end`, otherwise relaxes the four
neighbors, marks the cell visited and yields a progress snapshot. -/
def astarLoop (endC : Cell) : Nat → AState → Option AState
  | 0, _ => none
  | fuel + 1, s =>
    match heapPop s.frontier with
    | none => some s
    | some (e, rest) =>
      if e.2 = endC then some { s with frontier := rest }
      else
        match relaxAll endC e.2 { s with frontier := rest } with
        | none => none
        | some s1 =>
          astarLoop endC fuel
            { s1 with
              visited := insert e.2 s1.visited,
              snaps := s1.snaps ++ [⟨insert e.2 s1.visited, s1.frontier, none⟩] }

/-- The path-reconstruction loop `while current != start:` of src/main.py
lines 104-113.  `came_from.get(current)` is `(dlookup cur came_from).join`:
it yields `none` both when `cur` is absent and when the stored predecessor
is `None` (the start's entry).  On a missing predecessor the source sets
`path = []` and breaks. -/
def reconLoop (came_from : Dict (Option Cell)) (startC : Cell) (vis : Finset Cell)
    (fr : List (Nat × Cell)) :
    Nat → Cell → List Cell → List Snap → Option (List Cell × List Snap)
  | 0, _, _, _ => none
  | fuel + 1, cur, path, snaps =>
    if cur = startC then some (path, snaps)
    else
      let path1 := path ++ [cur]
      match (dlookup cur came_from).join with
      | none => some ([], snaps)
      | some prev =>
        reconLoop came_from startC vis fr fuel prev path1 (snaps ++ [⟨vis, fr, some path1⟩])

/-- The initial search state of src/main.py lines 75-79: frontier seeded with
`(0, start)`, `came_from = {start: None}`, `cost_so_far = {start: 0}`,
`visited = set()`. -/
def astarInit (g : Grid) (startC : Cell) : AState :=
  { grid := g, frontier := [(0, startC)],
    came_from := dinsert startC none [],
    cost_so_far := dinsert startC 0 [],
    visited := ∅, snaps := [] }

/-- A finite universe containing every cell that can ever acquire a
`cost_so_far` entry: the in-bounds cells plus the start cell. -/
def univCells (g : Grid) (startC : Cell) : Finset Cell :=
  insert startC
    ((Finset.Icc (0 : Int) ((width g : Int) - 1)) ×ˢ
      (Finset.Icc (0 : Int) ((g.length : Int) - 1)))

/-- A strict upper bound on every value stored in `cost_so_far`. -/
def costBound (g : Grid) : Nat := width g * g.length + 1

/-- Fuel for the search loop; proved sufficient for every input. -/
def loopFuel (g : Grid) : Nat := costBound g * costBound g + costBound g + 3

/-- Fuel for the reconstruction loop; proved sufficient for every input. -/
def reconFuel (g : Grid) : Nat := costBound g + 1

/-- The state after the search phase of `PathFinder.astar` (the `while`
loop of lines 81-101 run to its exit). -/
def astarSearch (g : Grid) (startC endC : Cell) : Option AState :=
  astarLoop endC (loopFuel g) (astarInit g startC)

/-- `PathFinder.astar(grid, start, end, visualize=True)` run to completion:
the full list of yielded snapshots in order (progress snapshots of line 101,
reconstruction snapshots of line 113, then the final snapshot of line 116
carrying `(path + [start]).reverse()`). -/
def astar (g : Grid) (startC endC : Cell) : Option (List Snap) :=
  match astarSearch g startC endC with
  | none => none
  | some s =>
    match reconLoop s.came_from startC s.visited s.frontier (reconFuel g) endC [] [] with
    | none => none
    | some (path, rsnaps) =>
      some (s.snaps ++ rsnaps ++
        [⟨s.visited, s.frontier, some ((path ++ [startC]).reverse)⟩])

/-! ## The maze generator -/

/-- Remove the `i`-th element of a list, returning it and the remainder. -/
def pickOut {α : Type} : Nat → List α → Option (α × List α)
  | _, [] => none
  | 0, a :: rest => some (a, rest)
  | n + 1, a :: rest => (pickOut n rest).map fun p => (p.1, a :: p.2)

/-- Auxiliary selection loop of the shuffle. -/
def shuffleAux {α : Type} : Nat → Nat → List α → List α
  | 0, _, l => l
  | n + 1, r, l =>
    match pickOut (r % l.length) l with
    | none => l
    | some (a, rest) => a :: shuffleAux n (r / 4) rest

/-- `random.shuffle`, embedded as a deterministic permutation of the list
selected by the draw `r` taken from the seed-determined RNG stream (Python's
shuffle is exactly a sequence of such seeded draws; every permutation of the
4-element direction list is reachable for suitable `r`). -/
def shuffleList {α : Type} (r : Nat) (l : List α) : List α := shuffleAux l.length r l

/-- The direction scan of src/main.py lines 48-58: find the first shuffled
direction whose stride-2 neighbor is strictly inside the interior and still
`Wall`; return that neighbor together with the intermediate wall cell
`(x + dx//2, y + dy//2)`. -/
def findCarve (w h : Int) (opened : Finset Cell) (c : Cell) : List Cell → Option (Cell × Cell)
  | [] => none
  | d :: ds =>
    let n : Cell := (c.1 + d.1, c.2 + d.2)
    if 1 ≤ n.1 ∧ n.1 < w - 1 ∧ 1 ≤ n.2 ∧ n.2 < h - 1 ∧ n ∉ opened then
      some (n, (c.1 + d.1 / 2, c.2 + d.2 / 2))
    else findCarve w h opened c ds

/-- The generator state: the set of carved (Open) cells standing for the 0
entries of `self.grid`, the explicit stack, the current order of
`self.directions` (shuffled in place each iteration), and the list of
yielded events (`some c` = `Carved c`, `none` = a dead-end pop /
`StepBoundary`). -/
structure MazeState where
  opened : Finset Cell
  stack : List Cell
  dirs : List Cell
  events : List (Option Cell)
deriving DecidableEq

/-- One iteration of the `while stack:` loop of src/main.py lines 43-62:
shuffle the directions, carve the first admissible stride-2 neighbor (open
it and the intermediate cell, push it, yield it), or pop a dead end and
yield a step boundary. -/
def mazeStep (w h : Int) (r : Nat) (s : MazeState) : MazeState :=
  match s.stack with
  | [] => s
  | c :: rest =>
    let dirs1 := shuffleList r s.dirs
    match findCarve w h s.opened c dirs1 with
    | some p =>
      { opened := insert p.1 (insert p.2 s.opened), stack := p.1 :: s.stack,
        dirs := dirs1, events := s.events ++ [some p.1] }
    | none =>
      { opened := s.opened, stack := rest, dirs := dirs1, events := s.events ++ [none] }

/-- The state at the start of `MazeGenerator.generate` (src/main.py lines
39-41): grid fully walled except `(1,1)`, stack `[(1,1)]`. -/
def mazeInit : MazeState :=
  { opened := {((1 : Int), (1 : Int))}, stack := [((1 : Int), (1 : Int))],
    dirs := mazeDirs, events := [] }

/-- `MazeGenerator.generate(animate=True)` after `n` loop iterations, driven
by the seed-determined draw stream `rng`.  Once the stack empties the state
is final. -/
def mazeRun (w h : Int) (rng : Nat → Nat) : Nat → MazeState
  | 0 => mazeInit
  | n + 1 =>
    let s := mazeRun w h rng n
    if s.stack = [] then s else mazeStep w h (rng n) s

/-- Reachability inside a carved cell set by unit steps: the flood fill of
the spanning property. -/
def openAdj (opened : Finset Cell) (a b : Cell) : Prop :=
  a ∈ opened ∧ b ∈ opened ∧ unitAdj a b

/-- `OpenReach opened a b`: a flood fill of `opened` started at `a`
reaches `b`. -/
def OpenReach (opened : Finset Cell) (a b : Cell) : Prop :=
  Relation.ReflTransGen (openAdj opened) a b

/-- Room cells of the maze lattice: both coordinates odd (even offsets from
the initial cell `(1,1)`). -/
def isRoom (c : Cell) : Prop := Odd c.1 ∧ Odd c.2

/-- Connector cells: exactly one coordinate odd (the carved intermediate
wall cells). -/
def isConn (c : Cell) : Prop := (Odd c.1 ∧ ¬ Odd c.2) ∨ (¬ Odd c.1 ∧ Odd c.2)

instance (c : Cell) : Decidable (isRoom c) := by unfold isRoom; infer_instance
instance (c : Cell) : Decidable (isConn c) := by unfold isConn; infer_instance

/-- The final snapshot of an `astar` call (the last yielded tuple). -/
def finalSnapOf (g : Grid) (startC endC : Cell) : Option Snap :=
  (astar g startC endC).bind List.getLast?

/-- The path carried by the final snapshot of an `astar` call. -/
def finalPathOf (g : Grid) (startC endC : Cell) : Option (List Cell) :=
  (finalSnapOf g startC endC).bind Snap.path

/-- The value a cell contributes to the termination potential: its recorded
cost, or the strict cost bound when it has none. -/
def costVal (B : Nat) (cost : Dict Nat) (c : Cell) : Nat := (dlookup c cost).getD B

/-- Termination potential of a search state: total recorded cost over the
finite cell universe.  Every relaxation that pushes an entry strictly
decreases it. -/
def phiSum (g : Grid) (startC : Cell) (cost : Dict Nat) : Nat :=
  Finset.sum (univCells g startC) (costVal (costBound g) cost)

/-- Bookkeeping invariant of the search loop, valid for every input (even a
Wall or out-of-bounds start): enough to show the loop never raises and
terminates. -/
structure InvT (g : Grid) (startC : Cell) (s : AState) : Prop where
  grid_eq : s.grid = g
  fkeys : ∀ p c, (p, c) ∈ s.frontier → ∃ gc, dlookup c s.cost_so_far = some gc
  keysSub : dkeys s.cost_so_far ⊆ univCells g startC
  bnd : ∀ c gc, dlookup c s.cost_so_far = some gc → gc < (dkeys s.cost_so_far).card
  st0 : dlookup startC s.cost_so_far = some 0
  cf0 : dlookup startC s.came_from = some none
  cfDom : ∀ u, (dlookup u s.came_from).isSome = true → (dlookup u s.cost_so_far).isSome = true
  chain : ∀ u gu, dlookup u s.cost_so_far = some gu → u ≠ startC →
    ∃ p gp, dlookup u s.came_from = some (some p) ∧ dlookup p s.cost_so_far = some gp ∧
      gp < gu ∧ unitAdj p u ∧ isOpenIn g u = true

/-- Optimality invariant of the search loop, valid when the start cell is
Open.  `X` is an exception set used only transiently inside one iteration
(the just-popped cell, whose frontier entry is gone but which is not yet
marked visited); at every loop head `X = ∅`.  `walkTo`: every recorded cost
is the length of an actual Open walk from the start.  `fpr`: every frontier
entry is the seed or was pushed with priority `cost-at-push + heuristic`,
where the cell's current cost is at most the pushed cost.  `entryFor`: a
cell with a recorded cost has been expanded, or its most recent push is
still in the frontier (the seed for the start).  `visOpt`: every expanded
cell's recorded cost is the exact shortest-path distance.  `visNbr`:
expansion relaxed every Open neighbor to within one step of the expanded
cell's cost.  `envis`: the end cell is never expanded (the loop breaks
first). -/
structure InvO (g : Grid) (startC endC : Cell) (X : Finset Cell) (s : AState) : Prop where
  walkTo : ∀ c gc, dlookup c s.cost_so_far = some gc → WalkN g startC c gc
  fpr : ∀ p c, (p, c) ∈ s.frontier →
    (p = 0 ∧ c = startC) ∨
      ∃ gp, p = gp + heuristic endC c ∧
        ∃ gc, dlookup c s.cost_so_far = some gc ∧ gc ≤ gp
  entryFor : ∀ u gu, dlookup u s.cost_so_far = some gu →
    u ∈ s.visited ∨ u ∈ X ∨ (gu + heuristic endC u, u) ∈ s.frontier ∨
      (u = startC ∧ (0, startC) ∈ s.frontier)
  visOpt : ∀ c ∈ s.visited, ∃ k, IsDist g startC c k ∧ dlookup c s.cost_so_far = some k
  visNbr : ∀ c ∈ s.visited, ∀ d ∈ nbrDirs,
    isOpenIn g (c.1 + d.1, c.2 + d.2) = true →
      ∃ gc gu, dlookup c s.cost_so_far = some gc ∧
        dlookup (c.1 + d.1, c.2 + d.2) s.cost_so_far = some gu ∧ gu ≤ gc + 1
  envis : endC ∉ s.visited

/-! ## Maze generator: interior, border, invariant, measure -/

/-- The strict interior scanned by the carve check of src/main.py line 50:
`1 <= nx < width-1 and 1 <= ny < height-1`. -/
def interiorF (w h : Int) : Finset Cell :=
  (Finset.Icc 1 (w - 2)) ×ˢ (Finset.Icc 1 (h - 2))

/-- A border cell of a `w × h` grid. -/
def isBorder (w h : Int) (c : Cell) : Prop :=
  c.1 = 0 ∨ c.1 = w - 1 ∨ c.2 = 0 ∨ c.2 = h - 1

/-- Termination measure of the generation loop: each carve opens at least
one interior cell and pushes once; each dead end pops once. -/
def mazeMeasure (w h : Int) (s : MazeState) : Nat :=
  2 * ((interiorF w h) \ s.opened).card + s.stack.length

/-- The generator loop invariant: the direction list stays a permutation of
the four stride-2 directions; every opened cell is interior; the stack holds
opened room cells; opened cells are rooms or connectors; every opened
connector has both of its flanking rooms opened; the opened room count
exceeds the opened connector count by exactly one; and every opened cell is
flood-fill reachable from `(1,1)`. -/
structure MazeInv (w h : Int) (s : MazeState) : Prop where
  dirsPerm : s.dirs.Perm mazeDirs
  startMem : ((1 : Int), (1 : Int)) ∈ s.opened
  interior : ∀ c ∈ s.opened, c ∈ interiorF w h
  stackSub : ∀ c ∈ s.stack, c ∈ s.opened
  stackRoom : ∀ c ∈ s.stack, isRoom c
  parity : ∀ c ∈ s.opened, isRoom c ∨ isConn c
  connSupp : ∀ m ∈ s.opened, isConn m →
    ∃ r1 r2 : Cell, r1 ∈ s.opened ∧ r2 ∈ s.opened ∧ isRoom r1 ∧ isRoom r2 ∧
      unitAdj r1 m ∧ unitAdj m r2 ∧ 2 * m.1 = r1.1 + r2.1 ∧ 2 * m.2 = r1.2 + r2.2
  count : (s.opened.filter isRoom).card = (s.opened.filter isConn).card + 1
  reach : ∀ c ∈ s.opened, OpenReach s.opened ((1 : Int), (1 : Int)) c

/-! ## Dict lemmas -/

@[simp] theorem dlookup_nil {β : Type} (c : Cell) : dlookup (β := β) c [] = none := rfl

@[simp] theorem dlookup_dinsert_self {β : Type} (c : Cell) (v : β) (d : Dict β) :
    dlookup c (dinsert c v d) = some v := by
  simp [dinsert, dlookup]

theorem dlookup_dinsert_ne {β : Type} {c c' : Cell} (v : β) (d : Dict β) (h : c ≠ c') :
    dlookup c' (dinsert c v d) = dlookup c' d := by
  simp [dinsert, dlookup, h]

theorem mem_dkeys {β : Type} {c : Cell} {d : Dict β} :
    c ∈ dkeys d ↔ ∃ v, dlookup c d = some v := by
  induction d with
  | nil => simp [dkeys]
  | cons p rest ih =>
    obtain ⟨k, v⟩ := p
    simp only [dkeys] at ih
    simp only [dkeys, List.map_cons, List.toFinset_cons, Finset.mem_insert]
    by_cases hk : k = c
    · subst hk
      simp [dlookup]
    · simp only [dlookup, if_neg hk]
      constructor
      · rintro (h | h)
        · exact absurd h.symm hk
        · exact ih.mp h
      · intro h
        exact Or.inr (ih.mpr h)

theorem dkeys_dinsert {β : Type} (c : Cell) (v : β) (d : Dict β) :
    dkeys (dinsert c v d) = insert c (dkeys d) := by
  simp [dkeys, dinsert]

/-! ## Heap-pop lemmas -/

theorem entryLe_iff (a b : Nat × Cell) :
    entryLe a b = true ↔
      (a.1 < b.1 ∨ (a.1 = b.1 ∧ (a.2.1 < b.2.1 ∨ (a.2.1 = b.2.1 ∧ a.2.2 ≤ b.2.2)))) := by
  simp [entryLe]

theorem entryLe_refl (a : Nat × Cell) : entryLe a a = true := by
  simp [entryLe_iff]

theorem entryLe_trans {a b c : Nat × Cell} (h1 : entryLe a b = true)
    (h2 : entryLe b c = true) : entryLe a c = true := by
  rw [entryLe_iff] at *
  omega

theorem entryLe_total (a b : Nat × Cell) : entryLe a b = true ∨ entryLe b a = true := by
  rw [entryLe_iff, entryLe_iff]
  omega

theorem minEntry_mem {l : List (Nat × Cell)} {m : Nat × Cell}
    (h : minEntry l = some m) : m ∈ l := by
  induction l generalizing m with
  | nil => simp [minEntry] at h
  | cons e rest ih =>
    simp only [minEntry] at h
    cases hrest : minEntry rest with
    | none => rw [hrest] at h; cases h; exact List.mem_cons_self _ _
    | some m0 =>
      rw [hrest] at h
      by_cases hle : entryLe e m0 = true
      · simp [hle] at h
        cases h
        exact List.mem_cons_self _ _
      · simp [hle] at h
        cases h
        exact List.mem_cons_of_mem _ (ih hrest)

theorem minEntry_eq_none {l : List (Nat × Cell)} : minEntry l = none ↔ l = [] := by
  cases l with
  | nil => simp [minEntry]
  | cons e rest =>
    simp only [minEntry]
    cases minEntry rest with
    | none => simp
    | some m0 => by_cases hle : entryLe e m0 = true <;> simp [hle]

theorem minEntry_le {l : List (Nat × Cell)} {m : Nat × Cell}
    (h : minEntry l = some m) : ∀ x ∈ l, entryLe m x = true := by
  induction l generalizing m with
  | nil => simp [minEntry] at h
  | cons e rest ih =>
    simp only [minEntry] at h
    intro x hx
    cases hrest : minEntry rest with
    | none =>
      rw [hrest] at h
      cases h
      have hnil : rest = [] := minEntry_eq_none.mp hrest
      subst hnil
      simp only [List.mem_singleton] at hx
      subst hx
      exact entryLe_refl _
    | some m0 =>
      rw [hrest] at h
      by_cases hle : entryLe e m0 = true
      · simp only [hle, if_true] at h
        cases h
        rcases List.mem_cons.mp hx with he | hr
        · subst he; exact entryLe_refl _
        · exact entryLe_trans hle (ih hrest x hr)
      · simp [hle] at h
        rcases List.mem_cons.mp hx with he | hr
        · have h2 : entryLe m0 x = true := by
            subst he
            rcases entryLe_total x m0 with h1 | h2
            · exact absurd h1 hle
            · exact h2
          exact h ▸ h2
        · exact h ▸ ih hrest x hr

theorem minEntry_isSome {l : List (Nat × Cell)} (h : l ≠ []) :
    ∃ m, minEntry l = some m := by
  cases l with
  | nil => exact absurd rfl h
  | cons e rest =>
    simp only [minEntry]
    cases minEntry rest with
    | none => exact ⟨e, rfl⟩
    | some m0 => by_cases hle : entryLe e m0 = true <;> simp [hle]

theorem heapPop_eq_some {l : List (Nat × Cell)} (h : l ≠ []) :
    ∃ m, heapPop l = some (m, l.erase m) ∧ m ∈ l ∧ ∀ x ∈ l, entryLe m x = true := by
  obtain ⟨m, hm⟩ := minEntry_isSome h
  exact ⟨m, by simp [heapPop, hm], minEntry_mem hm, minEntry_le hm⟩

theorem heapPop_none_iff (l : List (Nat × Cell)) : heapPop l = none ↔ l = [] := by
  constructor
  · intro h
    by_contra hne
    obtain ⟨m, hm, _, _⟩ := heapPop_eq_some hne
    rw [hm] at h
    cases h
  · rintro rfl
    rfl

/-- C5: at every iteration of the search loop of `PathFinder.astar` (whose
pops are `heapPop`, see `astarLoop`), the entry removed from a non-empty
frontier is the minimum of the current frontier under lexicographic order
on `(priority, x, y)`; in particular, among entries of equal priority the
cell with the lexicographically smallest `(x, y)` is popped first. -/
theorem astar_pop_min (s : AState) (h : s.frontier ≠ []) :
    ∃ e rest, heapPop s.frontier = some (e, rest) ∧ e ∈ s.frontier ∧
      (∀ x ∈ s.frontier, entryLe e x = true) ∧
      (∀ x ∈ s.frontier, x.1 = e.1 →
        e.2.1 < x.2.1 ∨ (e.2.1 = x.2.1 ∧ e.2.2 ≤ x.2.2)) := by
  obtain ⟨m, hm, hmem, hle⟩ := heapPop_eq_some h
  refine ⟨m, _, hm, hmem, hle, ?_⟩
  intro x hx hpx
  have h1 := (entryLe_iff m x).mp (hle x hx)
  omega

/-- Witness for `astar_pop_min`: a concrete frontier holding a priority tie
between cells `(5,5)` and `(4,9)`. -/
theorem astar_pop_min_witness :
    ∃ e rest,
      heapPop (AState.mk [[0]] [(1, (5, 5)), (1, (4, 9)), (2, (0, 0))] [] [] ∅ []).frontier
          = some (e, rest) ∧
        e ∈ (AState.mk [[0]] [(1, (5, 5)), (1, (4, 9)), (2, (0, 0))] [] [] ∅ []).frontier ∧
        (∀ x ∈ (AState.mk [[0]] [(1, (5, 5)), (1, (4, 9)), (2, (0, 0))] [] [] ∅ []).frontier,
          entryLe e x = true) ∧
        (∀ x ∈ (AState.mk [[0]] [(1, (5, 5)), (1, (4, 9)), (2, (0, 0))] [] [] ∅ []).frontier,
          x.1 = e.1 → e.2.1 < x.2.1 ∨ (e.2.1 = x.2.1 ∧ e.2.2 ≤ x.2.2)) :=
  astar_pop_min _ (by decide)

/-! ## Maze generator: basic lemmas -/

theorem pickOut_perm {α : Type} {i : Nat} {l rest : List α} {a : α}
    (h : pickOut i l = some (a, rest)) : l.Perm (a :: rest) := by
  induction l generalizing i rest with
  | nil => cases i <;> simp [pickOut] at h
  | cons b bs ih =>
    cases i with
    | zero =>
      simp only [pickOut] at h
      cases h
      exact List.Perm.refl _
    | succ n =>
      simp only [pickOut] at h
      cases hrec : pickOut n bs with
      | none => rw [hrec] at h; cases h
      | some p =>
        rw [hrec] at h
        obtain ⟨a0, rest0⟩ := p
        simp only [Option.map_some'] at h
        cases h
        exact (List.Perm.cons b (ih hrec)).trans (List.Perm.swap _ _ _)

theorem shuffleAux_perm {α : Type} : ∀ (n r : Nat) (l : List α), (shuffleAux n r l).Perm l
  | 0, _, l => List.Perm.refl l
  | n + 1, r, l => by
    simp only [shuffleAux]
    cases hp : pickOut (r % l.length) l with
    | none => exact List.Perm.refl l
    | some p =>
      obtain ⟨a, rest⟩ := p
      exact (List.Perm.cons a (shuffleAux_perm n (r / 4) rest)).trans (pickOut_perm hp).symm

theorem shuffleList_perm {α : Type} (r : Nat) (l : List α) : (shuffleList r l).Perm l :=
  shuffleAux_perm l.length r l

theorem findCarve_spec {w h : Int} {opened : Finset Cell} {c : Cell} {ds : List Cell}
    {n m : Cell} (hf : findCarve w h opened c ds = some (n, m)) :
    ∃ d ∈ ds, n = (c.1 + d.1, c.2 + d.2) ∧ m = (c.1 + d.1 / 2, c.2 + d.2 / 2) ∧
      1 ≤ n.1 ∧ n.1 < w - 1 ∧ 1 ≤ n.2 ∧ n.2 < h - 1 ∧ n ∉ opened := by
  induction ds with
  | nil => simp [findCarve] at hf
  | cons d ds ih =>
    by_cases hc : 1 ≤ c.1 + d.1 ∧ c.1 + d.1 < w - 1 ∧ 1 ≤ c.2 + d.2 ∧ c.2 + d.2 < h - 1 ∧
        ((c.1 + d.1, c.2 + d.2) : Cell) ∉ opened
    · simp only [findCarve, if_pos hc] at hf
      cases hf
      exact ⟨d, List.mem_cons_self _ _, rfl, rfl, hc.1, hc.2.1, hc.2.2.1, hc.2.2.2.1,
        hc.2.2.2.2⟩
    · simp only [findCarve, if_neg hc] at hf
      obtain ⟨d0, hd0, hrest⟩ := ih hf
      exact ⟨d0, List.mem_cons_of_mem _ hd0, hrest⟩

theorem findCarve_none {w h : Int} {opened : Finset Cell} {c : Cell} {ds : List Cell}
    (hf : findCarve w h opened c ds = none) :
    ∀ d ∈ ds, ¬(1 ≤ c.1 + d.1 ∧ c.1 + d.1 < w - 1 ∧ 1 ≤ c.2 + d.2 ∧ c.2 + d.2 < h - 1 ∧
      ((c.1 + d.1, c.2 + d.2) : Cell) ∉ opened) := by
  induction ds with
  | nil => simp
  | cons d ds ih =>
    by_cases hc : 1 ≤ c.1 + d.1 ∧ c.1 + d.1 < w - 1 ∧ 1 ≤ c.2 + d.2 ∧ c.2 + d.2 < h - 1 ∧
        ((c.1 + d.1, c.2 + d.2) : Cell) ∉ opened
    · simp only [findCarve, if_pos hc] at hf
      cases hf
    · simp only [findCarve, if_neg hc] at hf
      intro d0 hd0
      rcases List.mem_cons.mp hd0 with rfl | hmem
      · exact hc
      · exact ih hf d0 hmem

theorem openReach_mono {o o' : Finset Cell} (hsub : o ⊆ o') {a b : Cell}
    (h : OpenReach o a b) : OpenReach o' a b := by
  induction h with
  | refl => exact Relation.ReflTransGen.refl
  | tail _ hstep ih =>
    exact Relation.ReflTransGen.tail ih ⟨hsub hstep.1, hsub hstep.2.1, hstep.2.2⟩

theorem mazeDirs_cases {d : Cell} (hd : d ∈ mazeDirs) :
    d = (-2, 0) ∨ d = (2, 0) ∨ d = (0, -2) ∨ d = (0, 2) := by
  simpa [mazeDirs] using hd

theorem not_room_and_conn {x : Cell} (h1 : isRoom x) (h2 : isConn x) : False := by
  obtain ⟨a, b⟩ := h1
  rw [Int.odd_iff] at a b
  rcases h2 with ⟨_, hb⟩ | ⟨ha, _⟩
  · rw [Int.odd_iff] at hb; omega
  · rw [Int.odd_iff] at ha; omega

theorem carveGeom {c n m d : Cell} (hd : d ∈ mazeDirs) (hroom : isRoom c)
    (hn : n = (c.1 + d.1, c.2 + d.2)) (hm : m = (c.1 + d.1 / 2, c.2 + d.2 / 2)) :
    isRoom n ∧ isConn m ∧ unitAdj c m ∧ unitAdj m n ∧
      2 * m.1 = c.1 + n.1 ∧ 2 * m.2 = c.2 + n.2 := by
  obtain ⟨hc1, hc2⟩ := hroom
  rw [Int.odd_iff] at hc1 hc2
  rcases mazeDirs_cases hd with rfl | rfl | rfl | rfl <;>
    subst hn <;> subst hm <;>
    simp only [isRoom, isConn, unitAdj, nbrDirs, Int.odd_iff, List.mem_cons,
      List.mem_singleton, Prod.mk.injEq, List.not_mem_nil, or_false] <;>
    norm_num <;>
    omega

theorem conn_flank {m n r1 r2 : Cell} (hm : isConn m) (hn : isRoom n) (hr1 : isRoom r1)
    (hr2 : isRoom r2) (ha1 : unitAdj r1 m) (ha2 : unitAdj m r2) (han : unitAdj m n)
    (hs1 : 2 * m.1 = r1.1 + r2.1) (hs2 : 2 * m.2 = r1.2 + r2.2) : n = r1 ∨ n = r2 := by
  obtain ⟨hn1, hn2⟩ := hn
  obtain ⟨hr11, hr12⟩ := hr1
  obtain ⟨hr21, hr22⟩ := hr2
  rw [Int.odd_iff] at hn1 hn2 hr11 hr12 hr21 hr22
  simp only [unitAdj, nbrDirs, List.mem_cons, List.mem_singleton, Prod.mk.injEq,
    List.not_mem_nil, or_false] at ha1 ha2 han
  simp only [isConn, Int.odd_iff] at hm
  simp only [Prod.ext_iff]
  omega

theorem mazeInv_init {w h : Int} (hw : 3 ≤ w) (hh : 3 ≤ h) : MazeInv w h mazeInit := by
  refine ⟨List.Perm.refl _, ?_, ?_, ?_, ?_, ?_, ?_, ?_, ?_⟩
  · simp [mazeInit]
  · intro c hc
    simp only [mazeInit, Finset.mem_singleton] at hc
    subst hc
    simp only [interiorF, Finset.mem_product, Finset.mem_Icc]
    omega
  · intro c hc
    simp only [mazeInit, List.mem_singleton] at hc
    simp [mazeInit, hc]
  · intro c hc
    simp only [mazeInit, List.mem_singleton] at hc
    subst hc
    exact ⟨odd_one, odd_one⟩
  · intro c hc
    simp only [mazeInit, Finset.mem_singleton] at hc
    subst hc
    exact Or.inl ⟨odd_one, odd_one⟩
  · intro m hm hconn
    simp only [mazeInit, Finset.mem_singleton] at hm
    subst hm
    exact absurd hconn (fun h2 => not_room_and_conn ⟨odd_one, odd_one⟩ h2)
  · decide
  · intro c hc
    simp only [mazeInit, Finset.mem_singleton] at hc
    subst hc
    exact Relation.ReflTransGen.refl

theorem mazeInv_step {w h : Int} {s : MazeState} (r : Nat) (inv : MazeInv w h s) :
    MazeInv w h (mazeStep w h r s) := by
  cases hstack : s.stack with
  | nil => simpa [mazeStep, hstack] using inv
  | cons c rest =>
    have hcmem : c ∈ s.stack := by rw [hstack]; exact List.mem_cons_self _ _
    have hcop : c ∈ s.opened := inv.stackSub c hcmem
    have hcroom : isRoom c := inv.stackRoom c hcmem
    have hdirs1 : (shuffleList r s.dirs).Perm mazeDirs :=
      (shuffleList_perm r s.dirs).trans inv.dirsPerm
    simp only [mazeStep, hstack]
    cases hfc : findCarve w h s.opened c (shuffleList r s.dirs) with
    | none =>
      refine ⟨hdirs1, inv.startMem, inv.interior, ?_, ?_, inv.parity, inv.connSupp,
        inv.count, inv.reach⟩
      · intro x hx
        exact inv.stackSub x (by rw [hstack]; exact List.mem_cons_of_mem _ hx)
      · intro x hx
        exact inv.stackRoom x (by rw [hstack]; exact List.mem_cons_of_mem _ hx)
    | some p =>
      obtain ⟨n, m⟩ := p
      obtain ⟨d, hd, hn, hm, hb1, hb2, hb3, hb4, hnop⟩ := findCarve_spec hfc
      have hdm : d ∈ mazeDirs := (hdirs1.mem_iff).mp hd
      obtain ⟨hroomn, hconnm, hadjcm, hadjmn, hsum1, hsum2⟩ := carveGeom hdm hcroom hn hm
      have hcint := inv.interior c hcop
      simp only [interiorF, Finset.mem_product, Finset.mem_Icc] at hcint
      have hnint : n ∈ interiorF w h := by
        simp only [interiorF, Finset.mem_product, Finset.mem_Icc]
        omega
      have hmint : m ∈ interiorF w h := by
        simp only [interiorF, Finset.mem_product, Finset.mem_Icc]
        omega
      have hmnot : m ∉ s.opened := by
        intro hmem
        rcases inv.parity m hmem with hroomm | hconnm2
        · exact not_room_and_conn hroomm hconnm
        · obtain ⟨r1, r2, hr1m, hr2m, hr1r, hr2r, ha1, ha2, hs1, hs2⟩ :=
            inv.connSupp m hmem hconnm2
          rcases conn_flank hconnm2 hroomn hr1r hr2r ha1 ha2 hadjmn hs1 hs2 with rfl | rfl
          · exact hnop hr1m
          · exact hnop hr2m
      have hsub : s.opened ⊆ insert n (insert m s.opened) := fun x hx =>
        Finset.mem_insert_of_mem (Finset.mem_insert_of_mem hx)
      have hnmem : n ∈ insert n (insert m s.opened) := Finset.mem_insert_self _ _
      have hmmem : m ∈ insert n (insert m s.opened) :=
        Finset.mem_insert_of_mem (Finset.mem_insert_self _ _)
      refine ⟨hdirs1, hsub inv.startMem, ?_, ?_, ?_, ?_, ?_, ?_, ?_⟩
      · intro x hx
        rcases Finset.mem_insert.mp hx with rfl | hx2
        · exact hnint
        rcases Finset.mem_insert.mp hx2 with rfl | hx3
        · exact hmint
        · exact inv.interior x hx3
      · intro x hx
        rcases List.mem_cons.mp hx with rfl | hx2
        · exact hnmem
        · exact hsub (inv.stackSub x (hstack ▸ hx2))
      · intro x hx
        rcases List.mem_cons.mp hx with rfl | hx2
        · exact hroomn
        · exact inv.stackRoom x (hstack ▸ hx2)
      · intro x hx
        rcases Finset.mem_insert.mp hx with rfl | hx2
        · exact Or.inl hroomn
        rcases Finset.mem_insert.mp hx2 with rfl | hx3
        · exact Or.inr hconnm
        · exact inv.parity x hx3
      · intro m' hm' hconn'
        rcases Finset.mem_insert.mp hm' with rfl | hm2
        · exact absurd hconn' (fun h2 => not_room_and_conn hroomn h2)
        rcases Finset.mem_insert.mp hm2 with rfl | hm3
        · exact ⟨c, n, hsub hcop, hnmem, hcroom, hroomn, hadjcm, hadjmn, hsum1, hsum2⟩
        · obtain ⟨r1, r2, h1, h2, h3, h4, h5, h6, h7, h8⟩ := inv.connSupp m' hm3 hconn'
          exact ⟨r1, r2, hsub h1, hsub h2, h3, h4, h5, h6, h7, h8⟩
      · have hniltr : (insert n (insert m s.opened)).filter isRoom =
            insert n (s.opened.filter isRoom) := by
          rw [Finset.filter_insert, if_pos hroomn, Finset.filter_insert,
            if_neg (fun h2 => not_room_and_conn h2 hconnm)]
        have hfiltc : (insert n (insert m s.opened)).filter isConn =
            insert m (s.opened.filter isConn) := by
          rw [Finset.filter_insert, if_neg (fun h2 => not_room_and_conn hroomn h2),
            Finset.filter_insert, if_pos hconnm]
        rw [hniltr, hfiltc,
          Finset.card_insert_of_not_mem (fun h2 => hnop (Finset.mem_filter.mp h2).1),
          Finset.card_insert_of_not_mem (fun h2 => hmnot (Finset.mem_filter.mp h2).1),
          inv.count]
      · intro x hx
        have hreachc : OpenReach (insert n (insert m s.opened)) ((1 : Int), (1 : Int)) c :=
          openReach_mono hsub (inv.reach c hcop)
        have hreachm : OpenReach (insert n (insert m s.opened)) ((1 : Int), (1 : Int)) m :=
          hreachc.tail ⟨hsub hcop, hmmem, hadjcm⟩
        have hreachn : OpenReach (insert n (insert m s.opened)) ((1 : Int), (1 : Int)) n :=
          hreachm.tail ⟨hmmem, hnmem, hadjmn⟩
        rcases Finset.mem_insert.mp hx with rfl | hx2
        · exact hreachn
        rcases Finset.mem_insert.mp hx2 with rfl | hx3
        · exact hreachm
        · exact openReach_mono hsub (inv.reach x hx3)

theorem mazeInv_run {w h : Int} (hw : 3 ≤ w) (hh : 3 ≤ h) (rng : Nat → Nat) :
    ∀ n, MazeInv w h (mazeRun w h rng n) := by
  intro n
  induction n with
  | zero => exact mazeInv_init hw hh
  | succ k ih =>
    simp only [mazeRun]
    by_cases hdone : (mazeRun w h rng k).stack = []
    · simpa [hdone] using ih
    · simpa [hdone] using mazeInv_step (rng k) ih

/-- C6: for every `width, height ≥ 3`, every draw stream (seed), and every
point during and after `MazeGenerator.generate` (every iterate of the
generation loop), no border cell is ever Open: every cell with `x ∈ {0, w-1}`
or `y ∈ {0, h-1}` stays Wall, so no carve step ever opens a border cell. -/
theorem maze_border_wall {w h : Int} (rng : Nat → Nat) (hw : 3 ≤ w) (hh : 3 ≤ h)
    (n : Nat) (c : Cell) (hb : isBorder w h c) : c ∉ (mazeRun w h rng n).opened := by
  intro hc
  have hint := (mazeInv_run hw hh rng n).interior c hc
  simp only [interiorF, Finset.mem_product, Finset.mem_Icc] at hint
  rcases hb with h1 | h1 | h1 | h1 <;> omega

/-- Witness for `maze_border_wall`: the corner `(0,0)` of a seeded `5 × 5`
run after 3 iterations. -/
theorem maze_border_wall_witness :
    (3 : Int) ≤ 5 ∧ isBorder 5 5 (0, 0) ∧
      (0, 0) ∉ (mazeRun 5 5 (fun k => k + 2) 3).opened :=
  ⟨by norm_num, by simp [isBorder],
    maze_border_wall (fun k => k + 2) (by norm_num) (by norm_num) 3 (0, 0)
      (by simp [isBorder])⟩

/-- C3: for `width, height ≥ 3` and any draw stream, once
`MazeGenerator.generate` has run to completion (empty stack), the Open cells
are connected — a flood fill from `(1,1)` reaches every Open cell — and
acyclic: the number of Open room cells (both coordinates odd) exceeds the
number of carved connector cells by exactly one, i.e. the Open cells form a
single spanning tree over the room sub-lattice. -/
theorem maze_spanning_tree {w h : Int} (rng : Nat → Nat) (hw : 3 ≤ w) (hh : 3 ≤ h)
    (n : Nat) (hdone : (mazeRun w h rng n).stack = []) :
    (∀ c ∈ (mazeRun w h rng n).opened,
        OpenReach (mazeRun w h rng n).opened ((1 : Int), (1 : Int)) c) ∧
      ((mazeRun w h rng n).opened.filter isRoom).card =
        ((mazeRun w h rng n).opened.filter isConn).card + 1 :=
  ⟨(mazeInv_run hw hh rng n).reach, (mazeInv_run hw hh rng n).count⟩

/-- Witness for `maze_spanning_tree`: a completed `3 × 3` run. -/
theorem maze_spanning_tree_witness :
    (mazeRun 3 3 (fun _ => 0) 1).stack = [] ∧
      ((∀ c ∈ (mazeRun 3 3 (fun _ => 0) 1).opened,
          OpenReach (mazeRun 3 3 (fun _ => 0) 1).opened ((1 : Int), (1 : Int)) c) ∧
        ((mazeRun 3 3 (fun _ => 0) 1).opened.filter isRoom).card =
          ((mazeRun 3 3 (fun _ => 0) 1).opened.filter isConn).card + 1) :=
  ⟨by decide,
    maze_spanning_tree (fun _ => 0) (by norm_num) (by norm_num) 1 (by decide)⟩

theorem mazeStep_measure {w h : Int} {s : MazeState} (r : Nat)
    (hne : s.stack ≠ []) : mazeMeasure w h (mazeStep w h r s) < mazeMeasure w h s := by
  cases hstack : s.stack with
  | nil => exact absurd hstack hne
  | cons c rest =>
    simp only [mazeStep, hstack]
    cases hfc : findCarve w h s.opened c (shuffleList r s.dirs) with
    | none =>
      simp only [mazeMeasure, hstack, List.length_cons]
      omega
    | some p =>
      obtain ⟨n, m⟩ := p
      obtain ⟨d, hd, hn, hm, hb1, hb2, hb3, hb4, hnop⟩ := findCarve_spec hfc
      have hnint : n ∈ interiorF w h := by
        simp only [interiorF, Finset.mem_product, Finset.mem_Icc]
        omega
      have hsubset : interiorF w h \ insert n (insert m s.opened) ⊆
          (interiorF w h \ s.opened).erase n := by
        intro x hx
        simp only [Finset.mem_sdiff, Finset.mem_insert, not_or] at hx
        exact Finset.mem_erase.mpr ⟨hx.2.1, Finset.mem_sdiff.mpr ⟨hx.1, hx.2.2.2⟩⟩
      have hnmem : n ∈ interiorF w h \ s.opened := Finset.mem_sdiff.mpr ⟨hnint, hnop⟩
      have hcard1 : (interiorF w h \ insert n (insert m s.opened)).card ≤
          ((interiorF w h \ s.opened).erase n).card := Finset.card_le_card hsubset
      have hcard2 : ((interiorF w h \ s.opened).erase n).card =
          (interiorF w h \ s.opened).card - 1 := Finset.card_erase_of_mem hnmem
      have hpos : 1 ≤ (interiorF w h \ s.opened).card := Finset.card_pos.mpr ⟨n, hnmem⟩
      simp only [mazeMeasure, hstack, List.length_cons]
      omega

/-- C7: for every `width, height ≥ 3` and every draw stream, the generation
loop of `MazeGenerator.generate` terminates: after finitely many iterations
(each of which yields one carve or backtrack event) the stack is empty, and
the run is stable from then on (the event list emitted up to that point is
the finite, complete event sequence). -/
theorem maze_terminates {w h : Int} (rng : Nat → Nat) (hw : 3 ≤ w) (hh : 3 ≤ h) :
    ∃ n, (mazeRun w h rng n).stack = [] ∧
      ∀ m, n ≤ m → mazeRun w h rng m = mazeRun w h rng n := by
  have key : ∀ k n, mazeMeasure w h (mazeRun w h rng n) ≤ k →
      ∃ N, (mazeRun w h rng N).stack = [] := by
    intro k
    induction k with
    | zero =>
      intro n hn
      refine ⟨n, List.length_eq_zero.mp ?_⟩
      simp only [mazeMeasure] at hn
      omega
    | succ k ih =>
      intro n hn
      by_cases hdone : (mazeRun w h rng n).stack = []
      · exact ⟨n, hdone⟩
      · have hlt : mazeMeasure w h (mazeRun w h rng (n + 1)) <
            mazeMeasure w h (mazeRun w h rng n) := by
          simp only [mazeRun]
          rw [if_neg hdone]
          exact mazeStep_measure _ hdone
        exact ih (n + 1) (by omega)
  obtain ⟨N, hN⟩ := key (mazeMeasure w h (mazeRun w h rng 0)) 0 le_rfl
  refine ⟨N, hN, ?_⟩
  have hstab : ∀ j, mazeRun w h rng (N + j) = mazeRun w h rng N := by
    intro j
    induction j with
    | zero => rfl
    | succ i ihh =>
      have hstep : mazeRun w h rng (N + i + 1) = mazeRun w h rng (N + i) := by
        simp only [mazeRun]
        rw [if_pos (by rw [ihh]; exact hN)]
      rw [show N + (i + 1) = N + i + 1 from rfl, hstep, ihh]
  intro m hm
  have hs := hstab (m - N)
  rwa [show N + (m - N) = m from by omega] at hs

/-- Witness for `maze_terminates` at `w = h = 5` with a concrete stream. -/
theorem maze_terminates_witness :
    (3 : Int) ≤ 5 ∧
      ∃ n, (mazeRun 5 5 (fun k => 3 * k + 1) n).stack = [] ∧
        ∀ m, n ≤ m → mazeRun 5 5 (fun k => 3 * k + 1) m = mazeRun 5 5 (fun k => 3 * k + 1) n :=
  ⟨by norm_num, maze_terminates (fun k => 3 * k + 1) (by norm_num) (by norm_num)⟩

theorem mazeRun_congr {w h : Int} {r1 r2 : Nat → Nat}
    (hr : ∀ k, r1 k = r2 k) : ∀ n, mazeRun w h r1 n = mazeRun w h r2 n := by
  intro n
  induction n with
  | zero => rfl
  | succ k ih => simp only [mazeRun, ih, hr k]

/-- C8: `MazeGenerator.generate` is deterministic in the seed: two runs with
the same dimensions whose seeded RNGs produce the same draw at every step
yield identical grids (the same Open-cell sets) and identical event
sequences, in the same order, at every iteration — in particular the final
mazes and full carve/backtrack event lists coincide. -/
theorem maze_deterministic {w h : Int} {r1 r2 : Nat → Nat}
    (hr : ∀ k, r1 k = r2 k) (n : Nat) :
    (mazeRun w h r1 n).opened = (mazeRun w h r2 n).opened ∧
      (mazeRun w h r1 n).events = (mazeRun w h r2 n).events := by
  rw [mazeRun_congr hr n]
  exact ⟨rfl, rfl⟩

/-- Witness for `maze_deterministic`: two syntactically different but
pointwise-equal streams on a `5 × 5` run. -/
theorem maze_deterministic_witness :
    (mazeRun 5 5 (fun k => k + k) 4).opened = (mazeRun 5 5 (fun k => 2 * k) 4).opened ∧
      (mazeRun 5 5 (fun k => k + k) 4).events = (mazeRun 5 5 (fun k => 2 * k) 4).events :=
  maze_deterministic (fun k => by omega) 4

/-! ## A*: structural lemmas about a single relaxation -/

theorem relaxOne_frame {endC current : Cell} {s s' : AState} {d : Cell}
    (h : relaxOne endC current s d = some s') :
    s'.grid = s.grid ∧ s'.visited = s.visited ∧ s'.snaps = s.snaps := by
  simp only [relaxOne] at h
  split at h
  · split at h
    · cases h
    · split at h
      · cases h; exact ⟨rfl, rfl, rfl⟩
      · cases h; exact ⟨rfl, rfl, rfl⟩
  · cases h; exact ⟨rfl, rfl, rfl⟩

theorem foldRelax_frame {endC current : Cell} :
    ∀ (ds : List Cell) (s s' : AState),
      List.foldlM (fun st d => relaxOne endC current st d) s ds = some s' →
      s'.grid = s.grid ∧ s'.visited = s.visited ∧ s'.snaps = s.snaps := by
  intro ds
  induction ds with
  | nil =>
    intro s s' h
    injection h with h
    subst h
    exact ⟨rfl, rfl, rfl⟩
  | cons d ds ih =>
    intro s s' h
    rw [List.foldlM_cons] at h
    cases hr : relaxOne endC current s d with
    | none => rw [hr] at h; cases h
    | some s1 =>
      rw [hr] at h
      obtain ⟨h1, h2, h3⟩ := relaxOne_frame hr
      obtain ⟨g1, g2, g3⟩ := ih s1 s' h
      exact ⟨g1.trans h1, g2.trans h2, g3.trans h3⟩

theorem relaxAll_frame {endC current : Cell} {s s' : AState}
    (h : relaxAll endC current s = some s') :
    s'.grid = s.grid ∧ s'.visited = s.visited ∧ s'.snaps = s.snaps :=
  foldRelax_frame nbrDirs s s' h

theorem astarLoop_grid {endC : Cell} :
    ∀ {fuel : Nat} {s s' : AState}, astarLoop endC fuel s = some s' → s'.grid = s.grid := by
  intro fuel
  induction fuel with
  | zero => intro s s' h; cases h
  | succ fuel ih =>
    intro s s' h
    simp only [astarLoop] at h
    cases hp : heapPop s.frontier with
    | none => simp only [hp] at h; cases h; rfl
    | some pr =>
      obtain ⟨e, rest⟩ := pr
      simp only [hp] at h
      by_cases hend : e.2 = endC
      · rw [if_pos hend] at h; cases h; rfl
      · rw [if_neg hend] at h
        cases hr : relaxAll endC e.2 { s with frontier := rest } with
        | none => simp only [hr] at h; cases h
        | some s1 =>
          simp only [hr] at h
          have hg := ih h
          rw [hg]
          exact (relaxAll_frame hr).1

/-- C9: `PathFinder.astar` never mutates the input grid: the grid carried
through the whole search state is the input grid, cell for cell, when the
search phase completes (the reconstruction phase never touches it at all —
it does not even receive it). -/
theorem astar_grid_frame {g : Grid} {startC endC : Cell} {s' : AState}
    (h : astarSearch g startC endC = some s') :
    s'.grid = g ∧ ∀ c, cellVal s'.grid c = cellVal g c := by
  have hg : s'.grid = (astarInit g startC).grid := astarLoop_grid h
  exact ⟨hg, fun c => by rw [hg]; rfl⟩


/-- Witness for `astar_grid_frame` on a concrete 1×2 grid. -/
theorem astar_grid_frame_witness :
    ∃ s', astarSearch [[0, 0]] (0, 0) (1, 0) = some s' ∧
      s'.grid = [[0, 0]] ∧ ∀ c, cellVal s'.grid c = cellVal [[0, 0]] c := by
  cases hs : astarSearch [[0, 0]] (0, 0) (1, 0) with
  | none =>
    have hsome : (astarSearch [[0, 0]] (0, 0) (1, 0)).isSome = true := by decide
    rw [hs] at hsome
    cases hsome
  | some s' =>
    obtain ⟨h1, h2⟩ := astar_grid_frame hs
    exact ⟨s', rfl, h1, h2⟩

theorem astarLoop_end_not_visited {endC : Cell} :
    ∀ {fuel : Nat} {s s' : AState}, astarLoop endC fuel s = some s' →
      endC ∉ s.visited → (∀ sn ∈ s.snaps, endC ∉ sn.visited) →
      endC ∉ s'.visited ∧ ∀ sn ∈ s'.snaps, endC ∉ sn.visited := by
  intro fuel
  induction fuel with
  | zero => intro s s' h; cases h
  | succ fuel ih =>
    intro s s' h hv hs
    simp only [astarLoop] at h
    cases hp : heapPop s.frontier with
    | none => simp only [hp] at h; cases h; exact ⟨hv, hs⟩
    | some pr =>
      obtain ⟨e, rest⟩ := pr
      simp only [hp] at h
      by_cases hend : e.2 = endC
      · rw [if_pos hend] at h; cases h; exact ⟨hv, hs⟩
      · rw [if_neg hend] at h
        cases hr : relaxAll endC e.2 { s with frontier := rest } with
        | none => simp only [hr] at h; cases h
        | some s1 =>
          simp only [hr] at h
          obtain ⟨hg1, hv1, hs1⟩ := relaxAll_frame hr
          have hvins : endC ∉ insert e.2 s1.visited := by
            rw [hv1]
            intro hmem
            rcases Finset.mem_insert.mp hmem with he | hm
            · exact hend he.symm
            · exact hv hm
          refine ih h hvins ?_
          intro sn hsn
          rcases List.mem_append.mp hsn with h1 | h2
          · exact hs sn (hs1 ▸ h1)
          · simp only [List.mem_singleton] at h2
            subst h2
            exact hvins

theorem reconLoop_snaps {cf : Dict (Option Cell)} {startC : Cell} {vis : Finset Cell}
    {fr : List (Nat × Cell)} :
    ∀ {fuel : Nat} {cur : Cell} {path : List Cell} {snaps0 : List Snap}
      {out : List Cell × List Snap},
      reconLoop cf startC vis fr fuel cur path snaps0 = some out →
      ∀ sn ∈ out.2, sn ∈ snaps0 ∨ (sn.visited = vis ∧ sn.frontier = fr) := by
  intro fuel
  induction fuel with
  | zero => intro cur path snaps0 out h; cases h
  | succ fuel ih =>
    intro cur path snaps0 out h
    simp only [reconLoop] at h
    by_cases hcs : cur = startC
    · rw [if_pos hcs] at h; cases h; intro sn hsn; exact Or.inl hsn
    · rw [if_neg hcs] at h
      cases hj : (dlookup cur cf).join with
      | none => simp only [hj] at h; cases h; intro sn hsn; exact Or.inl hsn
      | some prev =>
        simp only [hj] at h
        intro sn hsn
        rcases ih h sn hsn with hmem | hface
        · rcases List.mem_append.mp hmem with h1 | h2
          · exact Or.inl h1
          · simp only [List.mem_singleton] at h2
            subst h2
            exact Or.inr ⟨rfl, rfl⟩
        · exact Or.inr hface

theorem astarSearch_self (g : Grid) (c : Cell) :
    astarSearch g c c = some
      { grid := g, frontier := [], came_from := dinsert c none [],
        cost_so_far := dinsert c 0 [], visited := ∅, snaps := [] } := by
  show astarLoop c (costBound g * costBound g + costBound g + 2 + 1) (astarInit g c) = _
  have hpop : heapPop [((0 : Nat), c)] = some ((0, c), []) := by
    simp [heapPop, minEntry, List.erase_cons_head]
  simp only [astarLoop, astarInit, hpop, if_pos rfl]
  simp

theorem astar_self (g : Grid) (c : Cell) :
    astar g c c = some [{ visited := ∅, frontier := [], path := some [c] }] := by
  unfold astar
  rw [astarSearch_self]
  simp only [reconFuel, reconLoop, if_pos rfl]
  simp

/-- C10: in every snapshot emitted by `PathFinder.astar` the end cell is not
a member of the visited set — the search loop breaks upon popping `end`
before marking it visited — and when `start = end` the final snapshot's
visited set is empty. -/
theorem astar_end_never_visited {g : Grid} {startC endC : Cell} {snaps : List Snap}
    (h : astar g startC endC = some snaps) :
    (∀ sn ∈ snaps, endC ∉ sn.visited) ∧
      (startC = endC → ∀ sn, snaps.getLast? = some sn → sn.visited = ∅) := by
  constructor
  · unfold astar at h
    cases hs : astarSearch g startC endC with
    | none => rw [hs] at h; cases h
    | some s =>
      rw [hs] at h
      cases hrec : reconLoop s.came_from startC s.visited s.frontier (reconFuel g) endC [] []
        with
      | none => simp only [hrec] at h; cases h
      | some pr =>
        obtain ⟨path, rsnaps⟩ := pr
        simp only [hrec] at h
        cases h
        have hloop := astarLoop_end_not_visited hs
          (by simp [astarInit]) (by simp [astarInit])
        intro sn hsn
        rcases List.mem_append.mp hsn with h1 | h2
        · rcases List.mem_append.mp h1 with h3 | h4
          · exact hloop.2 sn h3
          · rcases reconLoop_snaps hrec sn h4 with h5 | h6
            · simp at h5
            · rw [h6.1]; exact hloop.1
        · simp only [List.mem_singleton] at h2
          subst h2
          exact hloop.1
  · intro heq
    subst heq
    rw [astar_self] at h
    cases h
    intro sn hsn
    simp only [List.getLast?_singleton, Option.some.injEq] at hsn
    subst hsn
    rfl

/-- Witness for `astar_end_never_visited`: a 1×1 grid with `start = end`. -/
theorem astar_end_never_visited_witness :
    ∃ snaps, astar [[0]] (0, 0) (0, 0) = some snaps ∧
      (∀ sn ∈ snaps, ((0 : Int), (0 : Int)) ∉ sn.visited) ∧
      (∀ sn, snaps.getLast? = some sn → sn.visited = ∅) := by
  cases hs : astar [[0]] (0, 0) (0, 0) with
  | none =>
    have hsome : (astar [[0]] (0, 0) (0, 0)).isSome = true := by decide
    rw [hs] at hsome
    cases hsome
  | some snaps =>
    obtain ⟨h1, h2⟩ := astar_end_never_visited hs
    exact ⟨snaps, rfl, h1, h2 rfl⟩

/-! ## A*: bookkeeping invariant and termination of the search loop -/

theorem nbrDirs_cases {d : Cell} (hd : d ∈ nbrDirs) :
    d = (-1, 0) ∨ d = (1, 0) ∨ d = (0, -1) ∨ d = (0, 1) := by
  simpa [nbrDirs] using hd

theorem nbrDir_shift_ne {current : Cell} {d : Cell} (hd : d ∈ nbrDirs) :
    ((current.1 + d.1, current.2 + d.2) : Cell) ≠ current := by
  intro hc
  have h1 : current.1 + d.1 = current.1 := congrArg Prod.fst hc
  have h2 : current.2 + d.2 = current.2 := congrArg Prod.snd hc
  rcases nbrDirs_cases hd with rfl | rfl | rfl | rfl <;> dsimp only at h1 h2 <;> omega

theorem nbrDir_unitAdj {current : Cell} {d : Cell} (hd : d ∈ nbrDirs) :
    unitAdj current (current.1 + d.1, current.2 + d.2) := by
  have he : ((current.1 + d.1 - current.1, current.2 + d.2 - current.2) : Cell) = d := by
    rw [Prod.ext_iff]
    constructor <;> simp <;> ring
  unfold unitAdj
  rw [he]
  exact hd

theorem inBounds_mem_univ {g : Grid} {startC : Cell} {c : Cell}
    (h : inBounds g c = true) : c ∈ univCells g startC := by
  simp only [inBounds, decide_eq_true_eq] at h
  simp only [univCells, Finset.mem_insert, Finset.mem_product, Finset.mem_Icc]
  right
  omega

theorem isOpenIn_mem_univ {g : Grid} {startC : Cell} {c : Cell}
    (h : isOpenIn g c = true) : c ∈ univCells g startC := by
  simp only [isOpenIn, Bool.and_eq_true] at h
  exact inBounds_mem_univ h.1

theorem card_univCells_le (g : Grid) (startC : Cell) :
    (univCells g startC).card ≤ costBound g := by
  unfold univCells costBound
  calc (insert startC ((Finset.Icc (0 : Int) ((width g : Int) - 1)) ×ˢ
          (Finset.Icc (0 : Int) ((g.length : Int) - 1)))).card
      ≤ ((Finset.Icc (0 : Int) ((width g : Int) - 1)) ×ˢ
          (Finset.Icc (0 : Int) ((g.length : Int) - 1))).card + 1 :=
        Finset.card_insert_le _ _
    _ = (Finset.Icc (0 : Int) ((width g : Int) - 1)).card *
          (Finset.Icc (0 : Int) ((g.length : Int) - 1)).card + 1 := by
        rw [Finset.card_product]
    _ = width g * g.length + 1 := by
        rw [Int.card_Icc, Int.card_Icc]
        congr 1
        have h1 : ((width g : Int) - 1 + 1 - 0) = (width g : Int) := by ring
        have h2 : ((g.length : Int) - 1 + 1 - 0) = (g.length : Int) := by ring
        rw [h1, h2, Int.toNat_natCast, Int.toNat_natCast]

theorem heapPop_mem {l : List (Nat × Cell)} {e : Nat × Cell} {rest : List (Nat × Cell)}
    (h : heapPop l = some (e, rest)) : e ∈ l ∧ rest = l.erase e := by
  unfold heapPop at h
  cases hm : minEntry l with
  | none => rw [hm] at h; cases h
  | some m =>
    rw [hm] at h
    cases h
    exact ⟨minEntry_mem hm, rfl⟩

theorem phi_update {u : Finset Cell} {f f' : Cell → Nat} {n : Cell} (hn : n ∈ u)
    (hsame : ∀ x ∈ u, x ≠ n → f' x = f x) :
    Finset.sum u f' + f n = Finset.sum u f + f' n := by
  rw [← Finset.add_sum_erase u f hn, ← Finset.add_sum_erase u f' hn]
  have he : Finset.sum (u.erase n) (fun x => f' x) = Finset.sum (u.erase n) (fun x => f x) :=
    Finset.sum_congr rfl (fun x hx =>
      hsame x (Finset.mem_of_mem_erase hx) (Finset.ne_of_mem_erase hx))
  omega

theorem phiSum_le {g : Grid} {startC : Cell} {cost : Dict Nat}
    (hv : ∀ c v, dlookup c cost = some v → v ≤ costBound g) :
    phiSum g startC cost ≤ costBound g * costBound g := by
  unfold phiSum
  calc Finset.sum (univCells g startC) (costVal (costBound g) cost)
      ≤ (univCells g startC).card * costBound g := by
        rw [← smul_eq_mul]
        exact Finset.sum_le_card_nsmul _ _ _ (fun x _ => by
          unfold costVal
          cases hx : dlookup x cost with
          | none => simp
          | some v =>
            simp only [Option.getD_some]
            exact hv x v hx)
    _ ≤ costBound g * costBound g :=
        Nat.mul_le_mul_right _ (card_univCells_le g startC)

theorem phiSum_dinsert {g : Grid} {startC : Cell} {cost : Dict Nat} {n : Cell} {v : Nat}
    (hn : n ∈ univCells g startC) :
    phiSum g startC (dinsert n v cost) + costVal (costBound g) cost n =
      phiSum g startC cost + v := by
  have hupd := @phi_update (univCells g startC) (costVal (costBound g) cost)
    (costVal (costBound g) (dinsert n v cost)) n hn (fun x _ hxn => by
      unfold costVal
      rw [dlookup_dinsert_ne _ _ (fun hx => hxn hx.symm)])
  have hnew : costVal (costBound g) (dinsert n v cost) n = v := by
    unfold costVal
    rw [dlookup_dinsert_self]
    rfl
  rw [hnew] at hupd
  unfold phiSum
  exact hupd

theorem relaxOne_cases (endC current : Cell) (s : AState) (d : Cell) :
    relaxOne endC current s d = some s ∨
    (∃ cc, dlookup current s.cost_so_far = some cc ∧
       isOpenIn s.grid (current.1 + d.1, current.2 + d.2) = true ∧
       improves s.cost_so_far (current.1 + d.1, current.2 + d.2) (cc + 1) = true ∧
       relaxOne endC current s d = some
         { s with
           cost_so_far := dinsert (current.1 + d.1, current.2 + d.2) (cc + 1) s.cost_so_far,
           frontier := (cc + 1 + heuristic endC (current.1 + d.1, current.2 + d.2),
             (current.1 + d.1, current.2 + d.2)) :: s.frontier,
           came_from := dinsert (current.1 + d.1, current.2 + d.2) (some current)
             s.came_from }) ∨
    (dlookup current s.cost_so_far = none ∧ relaxOne endC current s d = none) := by
  by_cases hopen : isOpenIn s.grid (current.1 + d.1, current.2 + d.2) = true
  · cases hcc : dlookup current s.cost_so_far with
    | none =>
      exact Or.inr (Or.inr ⟨rfl, by simp only [relaxOne, if_pos hopen, hcc]⟩)
    | some cc =>
      by_cases himp :
          improves s.cost_so_far (current.1 + d.1, current.2 + d.2) (cc + 1) = true
      · exact Or.inr (Or.inl ⟨cc, rfl, hopen, himp,
          by simp only [relaxOne, if_pos hopen, hcc, if_pos himp]⟩)
      · exact Or.inl (by simp only [relaxOne, if_pos hopen, hcc, if_neg himp])
  · exact Or.inl (by simp only [relaxOne, if_neg hopen])

theorem relaxOne_invT {g : Grid} {startC endC current : Cell} {s s' : AState} {d : Cell}
    (hd : d ∈ nbrDirs) (inv : InvT g startC s) {cc : Nat}
    (hcc : dlookup current s.cost_so_far = some cc)
    (h : relaxOne endC current s d = some s') :
    InvT g startC s' ∧ dlookup current s'.cost_so_far = some cc ∧
      phiSum g startC s'.cost_so_far + s'.frontier.length ≤
        phiSum g startC s.cost_so_far + s.frontier.length := by
  rcases relaxOne_cases endC current s d with heq | ⟨cc2, hcc2, hopen, himp, heq⟩ |
    ⟨hnone, _⟩
  · rw [heq] at h
    injection h with h
    subst h
    exact ⟨inv, hcc, le_rfl⟩
  · rw [heq] at h
    injection h with h
    subst h
    obtain rfl : cc = cc2 := by
      rw [hcc2] at hcc
      injection hcc with hcc
      exact hcc.symm
    have hne : ((current.1 + d.1, current.2 + d.2) : Cell) ≠ current := nbrDir_shift_ne hd
    have hopg : isOpenIn g (current.1 + d.1, current.2 + d.2) = true := by
      rw [← inv.grid_eq]; exact hopen
    have hnuniv : ((current.1 + d.1, current.2 + d.2) : Cell) ∈ univCells g startC :=
      isOpenIn_mem_univ hopg
    have hnst : ((current.1 + d.1, current.2 + d.2) : Cell) ≠ startC := by
      intro hns
      rw [hns] at himp
      unfold improves at himp
      rw [inv.st0] at himp
      simp at himp
    have hlookcur : dlookup current
        (dinsert (current.1 + d.1, current.2 + d.2) (cc + 1) s.cost_so_far) = some cc := by
      rw [dlookup_dinsert_ne _ _ hne]
      exact hcc
    refine ⟨⟨inv.grid_eq, ?_, ?_, ?_, ?_, ?_, ?_, ?_⟩, hlookcur, ?_⟩
    · -- fkeys
      intro p x hmem
      rcases List.mem_cons.mp hmem with hhd | htl
      · have hx : x = ((current.1 + d.1, current.2 + d.2) : Cell) := congrArg Prod.snd hhd
        subst hx
        exact ⟨cc + 1, dlookup_dinsert_self _ _ _⟩
      · by_cases hxn : ((current.1 + d.1, current.2 + d.2) : Cell) = x
        · exact ⟨cc + 1, by rw [← hxn]; exact dlookup_dinsert_self _ _ _⟩
        · obtain ⟨gc, hgc⟩ := inv.fkeys p x htl
          exact ⟨gc, by rw [dlookup_dinsert_ne _ _ hxn]; exact hgc⟩
    · -- keysSub
      rw [dkeys_dinsert]
      exact Finset.insert_subset_iff.mpr ⟨hnuniv, inv.keysSub⟩
    · -- bnd
      intro x gx hx
      rw [dkeys_dinsert]
      by_cases hxn : ((current.1 + d.1, current.2 + d.2) : Cell) = x
      · rw [← hxn, dlookup_dinsert_self] at hx
        injection hx with hx
        subst hx
        unfold improves at himp
        cases hni : dlookup ((current.1 + d.1, current.2 + d.2) : Cell) s.cost_so_far with
        | none =>
          have hnotin : ((current.1 + d.1, current.2 + d.2) : Cell) ∉ dkeys s.cost_so_far := by
            rw [mem_dkeys]
            rintro ⟨v, hv⟩
            rw [hv] at hni
            cases hni
          rw [Finset.card_insert_of_not_mem hnotin]
          have := inv.bnd current cc hcc
          omega
        | some c0 =>
          rw [hni] at himp
          simp only [decide_eq_true_eq] at himp
          have hin : ((current.1 + d.1, current.2 + d.2) : Cell) ∈ dkeys s.cost_so_far :=
            mem_dkeys.mpr ⟨c0, hni⟩
          rw [Finset.insert_eq_self.mpr hin]
          have := inv.bnd _ c0 hni
          omega
      · rw [dlookup_dinsert_ne _ _ hxn] at hx
        have h1 := inv.bnd x gx hx
        have h2 : (dkeys s.cost_so_far).card ≤
            (insert ((current.1 + d.1, current.2 + d.2) : Cell) (dkeys s.cost_so_far)).card :=
          Finset.card_le_card (Finset.subset_insert _ _)
        omega
    · -- st0
      rw [dlookup_dinsert_ne _ _ hnst]
      exact inv.st0
    · -- cf0
      rw [dlookup_dinsert_ne _ _ hnst]
      exact inv.cf0
    · -- cfDom
      intro u hu
      by_cases hun : ((current.1 + d.1, current.2 + d.2) : Cell) = u
      · rw [← hun, dlookup_dinsert_self]
        rfl
      · rw [dlookup_dinsert_ne _ _ hun] at hu
        rw [dlookup_dinsert_ne _ _ hun]
        exact inv.cfDom u hu
    · -- chain
      intro u gu hlu hust
      by_cases hun : ((current.1 + d.1, current.2 + d.2) : Cell) = u
      · subst hun
        rw [dlookup_dinsert_self] at hlu
        injection hlu with hlu
        refine ⟨current, cc, dlookup_dinsert_self _ _ _, hlookcur, by omega,
          nbrDir_unitAdj hd, hopg⟩
      · rw [dlookup_dinsert_ne _ _ hun] at hlu
        obtain ⟨p, gp, hcf, hcp, hlt, hadj, hop⟩ := inv.chain u gu hlu hust
        refine ⟨p, ?_⟩
        by_cases hpn : p = ((current.1 + d.1, current.2 + d.2) : Cell)
        · subst hpn
          unfold improves at himp
          rw [hcp] at himp
          simp only [decide_eq_true_eq] at himp
          exact ⟨cc + 1, by rw [dlookup_dinsert_ne _ _ hun]; exact hcf,
            dlookup_dinsert_self _ _ _, by omega, hadj, hop⟩
        · exact ⟨gp, by rw [dlookup_dinsert_ne _ _ hun]; exact hcf,
            by rw [dlookup_dinsert_ne _ _ (fun hx => hpn hx.symm)]; exact hcp,
            hlt, hadj, hop⟩
    · -- potential
      have hupd := @phiSum_dinsert g startC s.cost_so_far
        ((current.1 + d.1, current.2 + d.2) : Cell) (cc + 1) hnuniv
      have hold : cc + 2 ≤ costVal (costBound g) s.cost_so_far
          ((current.1 + d.1, current.2 + d.2) : Cell) := by
        unfold improves at himp
        unfold costVal
        cases hni : dlookup ((current.1 + d.1, current.2 + d.2) : Cell) s.cost_so_far with
        | none =>
          simp only [Option.getD_none]
          have hb1 := inv.bnd current cc hcc
          have hnotin : ((current.1 + d.1, current.2 + d.2) : Cell) ∉ dkeys s.cost_so_far := by
            rw [mem_dkeys]
            rintro ⟨v, hv⟩
            rw [hv] at hni
            cases hni
          have hss : dkeys s.cost_so_far ⊂ univCells g startC :=
            ⟨inv.keysSub, fun hsub => hnotin (hsub hnuniv)⟩
          have hlt2 : (dkeys s.cost_so_far).card < (univCells g startC).card :=
            Finset.card_lt_card hss
          have hle3 := card_univCells_le g startC
          omega
        | some c0 =>
          rw [hni] at himp
          simp only [decide_eq_true_eq] at himp
          simp only [Option.getD_some]
          omega
      dsimp only
      simp only [List.length_cons]
      omega
  · rw [hnone] at hcc
    cases hcc

theorem invT_set_frontier {g : Grid} {startC : Cell} {s : AState} (inv : InvT g startC s)
    {l' : List (Nat × Cell)} (hsub : ∀ x ∈ l', x ∈ s.frontier) :
    InvT g startC { s with frontier := l' } :=
  ⟨inv.grid_eq, fun p c hm => inv.fkeys p c (hsub (p, c) hm), inv.keysSub, inv.bnd,
    inv.st0, inv.cf0, inv.cfDom, inv.chain⟩

theorem invT_set_vs {g : Grid} {startC : Cell} {s : AState} (inv : InvT g startC s)
    (v : Finset Cell) (sn : List Snap) :
    InvT g startC { s with visited := v, snaps := sn } :=
  ⟨inv.grid_eq, inv.fkeys, inv.keysSub, inv.bnd, inv.st0, inv.cf0, inv.cfDom, inv.chain⟩

theorem relaxOne_some_of_cost {endC current : Cell} {s : AState} {d : Cell} {cc : Nat}
    (hcc : dlookup current s.cost_so_far = some cc) :
    ∃ s1, relaxOne endC current s d = some s1 := by
  rcases relaxOne_cases endC current s d with heq | ⟨cc2, _, _, _, heq⟩ | ⟨hnone, _⟩
  · exact ⟨s, heq⟩
  · exact ⟨_, heq⟩
  · rw [hnone] at hcc
    cases hcc

theorem foldRelax_invT {g : Grid} {startC endC current : Cell} {cc : Nat} :
    ∀ (ds : List Cell), (∀ d ∈ ds, d ∈ nbrDirs) →
      ∀ (s : AState), InvT g startC s → dlookup current s.cost_so_far = some cc →
      ∃ s', List.foldlM (fun st d => relaxOne endC current st d) s ds = some s' ∧
        InvT g startC s' ∧ dlookup current s'.cost_so_far = some cc ∧
        phiSum g startC s'.cost_so_far + s'.frontier.length ≤
          phiSum g startC s.cost_so_far + s.frontier.length := by
  intro ds
  induction ds with
  | nil =>
    intro _ s inv hcc
    exact ⟨s, rfl, inv, hcc, le_rfl⟩
  | cons d ds ih =>
    intro hds s inv hcc
    obtain ⟨s1, h1⟩ := @relaxOne_some_of_cost endC current s d cc hcc
    obtain ⟨inv1, hcc1, hmu1⟩ := relaxOne_invT (hds d (List.mem_cons_self _ _)) inv hcc h1
    obtain ⟨s', hfold, inv', hcc', hmu'⟩ :=
      ih (fun d2 hd2 => hds d2 (List.mem_cons_of_mem _ hd2)) s1 inv1 hcc1
    refine ⟨s', ?_, inv', hcc', le_trans hmu' hmu1⟩
    rw [List.foldlM_cons, h1]
    exact hfold

theorem invT_init (g : Grid) (startC : Cell) : InvT g startC (astarInit g startC) := by
  refine ⟨rfl, ?_, ?_, ?_, ?_, ?_, ?_, ?_⟩
  · intro p c hmem
    simp only [astarInit, List.mem_singleton] at hmem
    have hc : c = startC := congrArg Prod.snd hmem
    subst hc
    exact ⟨0, dlookup_dinsert_self _ _ _⟩
  · simp only [astarInit]
    rw [dkeys_dinsert]
    refine Finset.insert_subset_iff.mpr ⟨Finset.mem_insert_self _ _, ?_⟩
    simp [dkeys]
  · intro c gc h
    simp only [astarInit] at h ⊢
    by_cases hc : startC = c
    · rw [← hc, dlookup_dinsert_self] at h
      injection h with h
      subst h
      rw [dkeys_dinsert]
      simp [dkeys]
    · rw [dlookup_dinsert_ne _ _ hc] at h
      cases h
  · exact dlookup_dinsert_self _ _ _
  · exact dlookup_dinsert_self _ _ _
  · intro u hu
    simp only [astarInit] at hu ⊢
    by_cases hc : startC = u
    · rw [← hc, dlookup_dinsert_self]
      rfl
    · rw [dlookup_dinsert_ne _ _ hc] at hu
      cases hu
  · intro u gu h hust
    simp only [astarInit] at h
    by_cases hc : startC = u
    · exact absurd hc.symm hust
    · rw [dlookup_dinsert_ne _ _ hc] at h
      cases h

theorem astarLoop_term {g : Grid} {startC endC : Cell} :
    ∀ (fuel : Nat) (s : AState), InvT g startC s →
      phiSum g startC s.cost_so_far + s.frontier.length < fuel →
      ∃ s', astarLoop endC fuel s = some s' ∧ InvT g startC s' := by
  intro fuel
  induction fuel with
  | zero => intro s _ hlt; omega
  | succ fuel ih =>
    intro s inv hlt
    cases hp : heapPop s.frontier with
    | none => exact ⟨s, by simp only [astarLoop, hp], inv⟩
    | some pr =>
      obtain ⟨e, rest⟩ := pr
      obtain ⟨hemem, hrest⟩ := heapPop_mem hp
      have hlen : rest.length = s.frontier.length - 1 := by
        rw [hrest]
        exact List.length_erase_of_mem hemem
      have hlenpos : 0 < s.frontier.length := List.length_pos_of_mem hemem
      have hsub : ∀ x ∈ rest, x ∈ s.frontier := by
        rw [hrest]
        exact fun x hx => List.mem_of_mem_erase hx
      have invpop : InvT g startC { s with frontier := rest } := invT_set_frontier inv hsub
      by_cases hend : e.2 = endC
      · exact ⟨{ s with frontier := rest },
          by simp only [astarLoop, hp, if_pos hend], invpop⟩
      · obtain ⟨cc, hcc⟩ := inv.fkeys e.1 e.2 (by rw [Prod.mk.eta]; exact hemem)
        obtain ⟨s1, hfold, inv1, hcc1, hmu1⟩ :=
          foldRelax_invT nbrDirs (fun d hd => hd) { s with frontier := rest } invpop hcc
        have hfold' : relaxAll endC e.2 { s with frontier := rest } = some s1 := hfold
        have inv2 : InvT g startC
            { s1 with
              visited := insert e.2 s1.visited,
              snaps := s1.snaps ++ [⟨insert e.2 s1.visited, s1.frontier, none⟩] } :=
          invT_set_vs inv1 _ _
        have hmu2 : phiSum g startC s1.cost_so_far + s1.frontier.length < fuel := by
          have := hmu1
          dsimp only at this
          omega
        obtain ⟨s', hloop, inv'⟩ := ih _ inv2 hmu2
        exact ⟨s', by simp only [astarLoop, hp, if_neg hend, hfold']; exact hloop, inv'⟩

theorem astarSearch_some (g : Grid) (startC endC : Cell) :
    ∃ s', astarSearch g startC endC = some s' ∧ InvT g startC s' := by
  apply astarLoop_term (loopFuel g) (astarInit g startC) (invT_init g startC)
  have h1 : phiSum g startC (astarInit g startC).cost_so_far ≤
      costBound g * costBound g := by
    apply phiSum_le
    intro c v h
    simp only [astarInit] at h
    by_cases hc : startC = c
    · rw [← hc, dlookup_dinsert_self] at h
      injection h with h
      omega
    · rw [dlookup_dinsert_ne _ _ hc] at h
      cases h
  have h2 : (astarInit g startC).frontier.length = 1 := rfl
  unfold loopFuel
  omega

theorem reconLoop_some {g : Grid} {startC : Cell} {s : AState} (inv : InvT g startC s) :
    ∀ (fuel : Nat) (cur : Cell) (path : List Cell) (snaps : List Snap),
      (∀ gc, dlookup cur s.cost_so_far = some gc → gc < fuel) → 0 < fuel →
      ∃ out, reconLoop s.came_from startC s.visited s.frontier fuel cur path snaps =
        some out := by
  intro fuel
  induction fuel with
  | zero => intro cur path snaps _ h0; omega
  | succ fuel ih =>
    intro cur path snaps hgc _
    by_cases hcs : cur = startC
    · exact ⟨(path, snaps), by simp only [reconLoop, if_pos hcs]⟩
    · cases hj : (dlookup cur s.came_from).join with
      | none => exact ⟨([], snaps), by simp only [reconLoop, if_neg hcs, hj]⟩
      | some prev =>
        have hcf2 : dlookup cur s.came_from = some (some prev) := by
          cases hl : dlookup cur s.came_from with
          | none => rw [hl] at hj; cases hj
          | some o =>
            rw [hl] at hj
            cases o with
            | none => cases hj
            | some x =>
              have hx : (some (some x) : Option (Option Cell)).join = some x := rfl
              rw [hx] at hj
              injection hj with hj
              rw [hj]
        have hcosts : (dlookup cur s.cost_so_far).isSome = true :=
          inv.cfDom cur (by rw [hcf2]; rfl)
        obtain ⟨gc, hgc'⟩ := Option.isSome_iff_exists.mp hcosts
        have hlt := hgc gc hgc'
        obtain ⟨p, gp, hcfp, hcp, hplt, _, _⟩ := inv.chain cur gc hgc' hcs
        obtain rfl : prev = p := by
          rw [hcfp] at hcf2
          injection hcf2 with h2
          injection h2 with h2
          exact h2.symm
        obtain ⟨out, hout⟩ := ih prev (path ++ [cur])
          (snaps ++ [⟨s.visited, s.frontier, some (path ++ [cur])⟩])
          (fun gc2 h2 => by
            rw [hcp] at h2
            injection h2 with h2
            omega)
          (by omega)
        exact ⟨out, by simp only [reconLoop, if_neg hcs, hj]; exact hout⟩

theorem astar_some (g : Grid) (startC endC : Cell) :
    ∃ snaps final p, astar g startC endC = some snaps ∧
      snaps.getLast? = some final ∧ final.path = some p := by
  obtain ⟨s', hs, inv'⟩ := astarSearch_some g startC endC
  obtain ⟨out, hout⟩ := reconLoop_some inv' (reconFuel g) endC [] []
    (fun gc hgc => by
      have h1 := inv'.bnd endC gc hgc
      have h2 : (dkeys s'.cost_so_far).card ≤ (univCells g startC).card :=
        Finset.card_le_card inv'.keysSub
      have h3 := card_univCells_le g startC
      unfold reconFuel
      omega)
    (by unfold reconFuel; omega)
  obtain ⟨path, rsnaps⟩ := out
  refine ⟨s'.snaps ++ rsnaps ++ [⟨s'.visited, s'.frontier, some ((path ++ [startC]).reverse)⟩],
    ⟨s'.visited, s'.frontier, some ((path ++ [startC]).reverse)⟩,
    (path ++ [startC]).reverse, ?_, ?_, rfl⟩
  · simp only [astar, hs, hout]
  · exact List.getLast?_concat _

/-- C4 counterexample: `PathFinder.astar` contains no precondition check at
all.  On the all-Wall 1×1 grid with `start = end = (0,0)` — a Wall cell, so
the claimed fail-fast validation should reject the call — the call instead
runs the search loop and emits a final snapshot carrying the path `[(0,0)]`,
so the claim "fails fast ... rather than running the search or producing a
path" is false on the code. -/
theorem astar_validation_counterexample :
    isOpenIn [[1]] (0, 0) = false ∧
      astar [[1]] (0, 0) (0, 0) =
        some [{ visited := ∅, frontier := [], path := some [(0, 0)] }] :=
  ⟨by decide, astar_self [[1]] (0, 0)⟩

/-- C4 (amended): `PathFinder.astar` performs no validation of `start` or
`end` whatsoever.  For every rectangular grid and arbitrary `start`/`end`
cells — in bounds or not, Open or Wall — the call runs the search to
completion and emits a final snapshot carrying a path value, rather than
failing fast with a descriptive error. -/
theorem astar_no_fail_fast (g : Grid) (startC endC : Cell) (hrect : RectGrid g) :
    ∃ snaps final p, astar g startC endC = some snaps ∧
      snaps.getLast? = some final ∧ final.path = some p :=
  astar_some g startC endC

/-- Witness for `astar_no_fail_fast`: a 1×2 grid whose start is a Wall cell
and whose end is out of bounds. -/
theorem astar_no_fail_fast_witness :
    RectGrid [[1, 0]] ∧
      ∃ snaps final p, astar [[1, 0]] (0, 0) (5, 5) = some snaps ∧
        snaps.getLast? = some final ∧ final.path = some p :=
  ⟨⟨by simp, by decide⟩, astar_no_fail_fast [[1, 0]] (0, 0) (5, 5) ⟨by simp, by decide⟩⟩

theorem c1_no_walk : ∀ {c : Cell} {n : Nat},
    WalkN [[0, 1, 0]] ((0 : Int), (0 : Int)) c n → c = (0, 0) := by
  intro c n hw
  induction hw with
  | refl => rfl
  | tail hw hadj hopen ih =>
    subst ih
    have hval : ∀ x : Cell, unitAdj ((0 : Int), (0 : Int)) x →
        x = (-1, 0) ∨ x = (1, 0) ∨ x = (0, -1) ∨ x = (0, 1) := by
      intro x hx
      have hcomp : ∀ u v : Int, ((x.1 - 0, x.2 - 0) : Cell) = (u, v) → x = (u, v) := by
        intro u v he
        have h1 := congrArg Prod.fst he
        have h2 := congrArg Prod.snd he
        dsimp only at h1 h2
        exact Prod.ext_iff.mpr ⟨by omega, by omega⟩
      rcases nbrDirs_cases hx with h | h | h | h
      · exact Or.inl (hcomp _ _ h)
      · exact Or.inr (Or.inl (hcomp _ _ h))
      · exact Or.inr (Or.inr (Or.inl (hcomp _ _ h)))
      · exact Or.inr (Or.inr (Or.inr (hcomp _ _ h)))
    rcases hval _ hadj with h | h | h | h <;>
      rw [h] at hopen <;>
      exact absurd hopen (by decide)

/-- C1 (code bug): on the 3×1 grid `[[0,1,0]]`, the cells `(0,0)` and
`(2,0)` are an in-bounds Open pair, the end `(2,0)` is unreachable from the
start `(0,0)` within the Open-cell subgraph, and yet the path carried by
the final snapshot of `PathFinder.astar` is `[(0,0)]` — the one-element
list holding the start — not the empty sequence the specification
requires.  The reconstruction loop of src/main.py sets `path = []` and
breaks when the predecessor is missing (the intended unreachable-end
signal, lines 109-111), but line 114 `path.append(start)` runs
unconditionally afterwards and clobbers the empty path. -/
theorem astar_unreachable_path_bug :
    isOpenIn [[0, 1, 0]] (0, 0) = true ∧ isOpenIn [[0, 1, 0]] (2, 0) = true ∧
      ¬ ReachableIn [[0, 1, 0]] (0, 0) (2, 0) ∧
      finalPathOf [[0, 1, 0]] (0, 0) (2, 0) = some [(0, 0)] := by
  refine ⟨by decide, by decide, ?_, by decide⟩
  rintro ⟨n, hw⟩
  have hc := c1_no_walk hw
  exact absurd hc (by decide)

/-! ## A*: walks, distances and the Manhattan heuristic -/

theorem walkN_open_src {g : Grid} {a b : Cell} {n : Nat} (h : WalkN g a b n) :
    isOpenIn g a = true := by
  induction h with
  | refl ha => exact ha
  | tail _ _ _ ih => exact ih

theorem walkN_open_dst {g : Grid} {a b : Cell} {n : Nat} (h : WalkN g a b n) :
    isOpenIn g b = true := by
  cases h with
  | refl ha => exact ha
  | tail _ _ hc => exact hc

theorem exists_isDist {g : Grid} {a b : Cell} (h : ReachableIn g a b) :
    ∃ k, IsDist g a b k := by
  classical
  have hdec : DecidablePred fun n => WalkN g a b n := fun n => Classical.propDecidable _
  exact ⟨Nat.find h, Nat.find_spec h, fun j hj => Nat.find_min' h hj⟩

theorem heuristic_comm (a b : Cell) : heuristic a b = heuristic b a := by
  unfold heuristic
  have h1 : a.1 - b.1 = -(b.1 - a.1) := by ring
  have h2 : a.2 - b.2 = -(b.2 - a.2) := by ring
  rw [h1, h2, Int.natAbs_neg, Int.natAbs_neg]

theorem heuristic_triangle (a b c : Cell) :
    heuristic a c ≤ heuristic a b + heuristic b c := by
  unfold heuristic
  have h1 : (a.1 - c.1).natAbs ≤ (a.1 - b.1).natAbs + (b.1 - c.1).natAbs := by
    have he : a.1 - c.1 = (a.1 - b.1) + (b.1 - c.1) := by ring
    rw [he]
    exact Int.natAbs_add_le _ _
  have h2 : (a.2 - c.2).natAbs ≤ (a.2 - b.2).natAbs + (b.2 - c.2).natAbs := by
    have he : a.2 - c.2 = (a.2 - b.2) + (b.2 - c.2) := by ring
    rw [he]
    exact Int.natAbs_add_le _ _
  omega

theorem heuristic_unitAdj {b c : Cell} (h : unitAdj b c) : heuristic b c = 1 := by
  rcases nbrDirs_cases h with he | he | he | he <;>
    · have h1 := congrArg Prod.fst he
      have h2 := congrArg Prod.snd he
      dsimp only at h1 h2
      unfold heuristic
      have hx : b.1 - c.1 = -(c.1 - b.1) := by ring
      have hy : b.2 - c.2 = -(c.2 - b.2) := by ring
      rw [hx, hy, Int.natAbs_neg, Int.natAbs_neg, h1, h2]
      rfl

theorem heuristic_le_walk {g : Grid} {a b : Cell} {n : Nat} (h : WalkN g a b n) :
    heuristic a b ≤ n := by
  induction h with
  | refl _ =>
    unfold heuristic
    simp
  | tail hw hadj hoc ih =>
    rename_i b' c' m
    have ht := heuristic_triangle a b' c'
    have h1 := heuristic_unitAdj hadj
    omega

theorem isDist_le_adj {g : Grid} {startC b c : Cell} {k k' : Nat}
    (hk : IsDist g startC b k) (hadj : unitAdj b c) (hoc : isOpenIn g c = true)
    (hk' : IsDist g startC c k') : k' ≤ k + 1 :=
  hk'.2 (k + 1) (hk.1.tail hadj hoc)

theorem relaxOne_invO {g : Grid} {startC endC current : Cell} {X : Finset Cell}
    {s s' : AState} {d : Cell} (hd : d ∈ nbrDirs)
    (hT : InvT g startC s) {cc : Nat}
    (hcc : dlookup current s.cost_so_far = some cc)
    (hO : InvO g startC endC X s)
    (h : relaxOne endC current s d = some s') :
    InvO g startC endC X s' ∧
      (∀ u gu, dlookup u s.cost_so_far = some gu →
        ∃ gu', dlookup u s'.cost_so_far = some gu' ∧ gu' ≤ gu) ∧
      (∀ c ∈ s.visited, dlookup c s'.cost_so_far = dlookup c s.cost_so_far) ∧
      (isOpenIn g (current.1 + d.1, current.2 + d.2) = true →
        ∃ gu, dlookup (current.1 + d.1, current.2 + d.2) s'.cost_so_far = some gu ∧
          gu ≤ cc + 1) := by
  have hgg := hT.grid_eq
  simp only [relaxOne] at h
  by_cases hopen : isOpenIn s.grid (current.1 + d.1, current.2 + d.2) = true
  · rw [if_pos hopen] at h
    simp only [hcc] at h
    by_cases himp : improves s.cost_so_far (current.1 + d.1, current.2 + d.2) (cc + 1) = true
    · rw [if_pos himp] at h
      injection h with h
      subst h
      have hopg : isOpenIn g (current.1 + d.1, current.2 + d.2) = true := by
        rw [← hgg]; exact hopen
      have hadj : unitAdj current (current.1 + d.1, current.2 + d.2) := nbrDir_unitAdj hd
      have hwn : WalkN g startC (current.1 + d.1, current.2 + d.2) (cc + 1) :=
        (hO.walkTo current cc hcc).tail hadj hopg
      have hnvis : ((current.1 + d.1, current.2 + d.2) : Cell) ∉ s.visited := by
        intro hmem
        obtain ⟨k, hk, hck⟩ := hO.visOpt _ hmem
        unfold improves at himp
        rw [hck] at himp
        simp only [decide_eq_true_eq] at himp
        have hle := hk.2 (cc + 1) hwn
        omega
      refine ⟨⟨?_, ?_, ?_, ?_, ?_, hO.envis⟩, ?_, ?_, ?_⟩
      · -- walkTo
        intro c gc hgc
        dsimp only at hgc
        by_cases hcn : ((current.1 + d.1, current.2 + d.2) : Cell) = c
        · rw [← hcn, dlookup_dinsert_self] at hgc
          injection hgc with hgc
          rw [← hcn, ← hgc]
          exact hwn
        · rw [dlookup_dinsert_ne _ _ hcn] at hgc
          exact hO.walkTo c gc hgc
      · -- fpr
        intro p c hmem
        dsimp only at hmem
        rcases List.mem_cons.mp hmem with hhd | htl
        · have hp : p = cc + 1 + heuristic endC (current.1 + d.1, current.2 + d.2) :=
            congrArg Prod.fst hhd
          have hcq : c = ((current.1 + d.1, current.2 + d.2) : Cell) :=
            congrArg Prod.snd hhd
          subst hcq
          exact Or.inr ⟨cc + 1, hp, cc + 1, dlookup_dinsert_self _ _ _, le_rfl⟩
        · rcases hO.fpr p c htl with hseed | ⟨gp, hp, gc, hgc, hle⟩
          · exact Or.inl hseed
          · refine Or.inr ⟨gp, hp, ?_⟩
            by_cases hcn : ((current.1 + d.1, current.2 + d.2) : Cell) = c
            · refine ⟨cc + 1, by rw [← hcn]; exact dlookup_dinsert_self _ _ _, ?_⟩
              unfold improves at himp
              rw [← hcn] at hgc
              rw [hgc] at himp
              simp only [decide_eq_true_eq] at himp
              omega
            · exact ⟨gc, by rw [dlookup_dinsert_ne _ _ hcn]; exact hgc, hle⟩
      · -- entryFor
        intro u gu hu
        dsimp only at hu ⊢
        by_cases hun : ((current.1 + d.1, current.2 + d.2) : Cell) = u
        · subst hun
          rw [dlookup_dinsert_self] at hu
          injection hu with hu
          subst hu
          exact Or.inr (Or.inr (Or.inl (List.mem_cons_self _ _)))
        · rw [dlookup_dinsert_ne _ _ hun] at hu
          rcases hO.entryFor u gu hu with h1 | h1 | h1 | h1
          · exact Or.inl h1
          · exact Or.inr (Or.inl h1)
          · exact Or.inr (Or.inr (Or.inl (List.mem_cons_of_mem _ h1)))
          · exact Or.inr (Or.inr (Or.inr ⟨h1.1, List.mem_cons_of_mem _ h1.2⟩))
      · -- visOpt
        intro c hcv
        have hcv' : c ∈ s.visited := hcv
        obtain ⟨k, hk, hck⟩ := hO.visOpt c hcv'
        have hne2 : ((current.1 + d.1, current.2 + d.2) : Cell) ≠ c := by
          intro he
          rw [he] at hnvis
          exact hnvis hcv'
        refine ⟨k, hk, ?_⟩
        dsimp only
        rw [dlookup_dinsert_ne _ _ hne2]
        exact hck
      · -- visNbr
        intro c hcv d0 hd0 hop0
        have hcv' : c ∈ s.visited := hcv
        obtain ⟨gc, gu, hgc, hgu, hle⟩ := hO.visNbr c hcv' d0 hd0 hop0
        have hne2 : ((current.1 + d.1, current.2 + d.2) : Cell) ≠ c := by
          intro he
          rw [he] at hnvis
          exact hnvis hcv'
        dsimp only
        by_cases hun : ((current.1 + d.1, current.2 + d.2) : Cell) =
            ((c.1 + d0.1, c.2 + d0.2) : Cell)
        · refine ⟨gc, cc + 1, ?_, ?_, ?_⟩
          · rw [dlookup_dinsert_ne _ _ hne2]
            exact hgc
          · rw [← hun]
            exact dlookup_dinsert_self _ _ _
          · unfold improves at himp
            rw [← hun] at hgu
            rw [hgu] at himp
            simp only [decide_eq_true_eq] at himp
            omega
        · refine ⟨gc, gu, ?_, ?_, hle⟩
          · rw [dlookup_dinsert_ne _ _ hne2]
            exact hgc
          · rw [dlookup_dinsert_ne _ _ hun]
            exact hgu
      · -- monotone costs
        intro u gu hu
        dsimp only
        by_cases hun : ((current.1 + d.1, current.2 + d.2) : Cell) = u
        · refine ⟨cc + 1, by rw [← hun]; exact dlookup_dinsert_self _ _ _, ?_⟩
          unfold improves at himp
          rw [← hun] at hu
          rw [hu] at himp
          simp only [decide_eq_true_eq] at himp
          omega
        · exact ⟨gu, by rw [dlookup_dinsert_ne _ _ hun]; exact hu, le_rfl⟩
      · -- visited costs unchanged
        intro c hcv
        have hne2 : ((current.1 + d.1, current.2 + d.2) : Cell) ≠ c := by
          intro he
          rw [he] at hnvis
          exact hnvis hcv
        dsimp only
        rw [dlookup_dinsert_ne _ _ hne2]
      · -- neighbor bound
        intro _
        dsimp only
        exact ⟨cc + 1, dlookup_dinsert_self _ _ _, le_rfl⟩
    · rw [if_neg himp] at h
      injection h with h
      subst h
      refine ⟨hO, fun u gu hu => ⟨gu, hu, le_rfl⟩, fun c _ => rfl, ?_⟩
      intro _
      unfold improves at himp
      cases hni : dlookup ((current.1 + d.1, current.2 + d.2) : Cell) s.cost_so_far with
      | none => rw [hni] at himp; simp at himp
      | some c0 =>
        rw [hni] at himp
        simp only [decide_eq_true_eq] at himp
        exact ⟨c0, rfl, by omega⟩
  · rw [if_neg hopen] at h
    injection h with h
    subst h
    refine ⟨hO, fun u gu hu => ⟨gu, hu, le_rfl⟩, fun c _ => rfl, ?_⟩
    intro hopn
    rw [← hgg] at hopn
    exact absurd hopn hopen

theorem heapPop_min {l : List (Nat × Cell)} {e : Nat × Cell} {rest : List (Nat × Cell)}
    (h : heapPop l = some (e, rest)) : ∀ x ∈ l, entryLe e x = true := by
  unfold heapPop at h
  cases hm : minEntry l with
  | none => rw [hm] at h; cases h
  | some m =>
    rw [hm] at h
    injection h with h
    injection h with h1 h2
    subst h1
    exact minEntry_le hm

theorem cover {g : Grid} {startC endC : Cell} {s : AState}
    (hT : InvT g startC s) (hO : InvO g startC endC ∅ s) :
    ∀ {z : Cell} {n : Nat}, WalkN g startC z n → z ∉ s.visited →
    ∃ p c i j, (p, c) ∈ s.frontier ∧ i + j = n ∧ p ≤ i + heuristic endC c ∧
      WalkN g c z j := by
  intro z n hw
  induction hw with
  | refl hst =>
    intro hz
    rcases hO.entryFor startC 0 hT.st0 with h1 | h1 | h1 | h1
    · exact absurd h1 hz
    · exact absurd h1 (Finset.not_mem_empty _)
    · exact ⟨0 + heuristic endC startC, startC, 0, 0, h1, rfl, by omega,
        WalkN.refl _ hst⟩
    · exact ⟨0, startC, 0, 0, h1.2, rfl, by omega, WalkN.refl _ hst⟩
  | tail hw hadj hoc ih =>
    rename_i b z' m
    intro hz
    by_cases hb : b ∈ s.visited
    · obtain ⟨k, hk, hckb⟩ := hO.visOpt b hb
      have hkm : k ≤ m := hk.2 m hw
      have hd0 : ((z'.1 - b.1, z'.2 - b.2) : Cell) ∈ nbrDirs := hadj
      have hz'eq : ((b.1 + (z'.1 - b.1), b.2 + (z'.2 - b.2)) : Cell) = z' := by
        rw [Prod.ext_iff]
        constructor <;> dsimp only <;> ring
      have hopz : isOpenIn g (b.1 + (z'.1 - b.1), b.2 + (z'.2 - b.2)) = true := by
        rw [hz'eq]
        exact hoc
      obtain ⟨gc, gu, hgc, hgu, hle⟩ := hO.visNbr b hb _ hd0 hopz
      rw [hz'eq] at hgu
      have hgck : gc = k := by
        rw [hckb] at hgc
        injection hgc with h2
        exact h2.symm
      rcases hO.entryFor z' gu hgu with h1 | h1 | h1 | h1
      · exact absurd h1 hz
      · exact absurd h1 (Finset.not_mem_empty _)
      · exact ⟨gu + heuristic endC z', z', m + 1, 0, h1, by omega, by omega,
          WalkN.refl _ hoc⟩
      · refine ⟨0, startC, m + 1, 0, h1.2, by omega, by omega, ?_⟩
        rw [h1.1] at hoc ⊢
        exact WalkN.refl _ hoc
    · obtain ⟨p, c, i, j, hmem, hij, hple, hwcz⟩ := ih hb
      exact ⟨p, c, i, j + 1, hmem, by omega, hple, hwcz.tail hadj hoc⟩

theorem pop_optimal {g : Grid} {startC endC : Cell} {s : AState}
    (hsto : isOpenIn g startC = true)
    (hT : InvT g startC s) (hO : InvO g startC endC ∅ s)
    {p0 : Nat} {c0 : Cell} (hmem : (p0, c0) ∈ s.frontier)
    (hmin : ∀ x ∈ s.frontier, entryLe (p0, c0) x = true)
    (hc0 : c0 ∉ s.visited) :
    ∃ k, IsDist g startC c0 k ∧ dlookup c0 s.cost_so_far = some k := by
  obtain ⟨g0, hg0⟩ := hT.fkeys p0 c0 hmem
  have hwg0 : WalkN g startC c0 g0 := hO.walkTo c0 g0 hg0
  obtain ⟨k, hk⟩ := exists_isDist ⟨g0, hwg0⟩
  obtain ⟨p, c, i, j, hpc, hij, hple, hwcz⟩ := cover hT hO hk.1 hc0
  have hp0p : p0 ≤ p := by
    have h4 := (entryLe_iff _ _).mp (hmin (p, c) hpc)
    dsimp only at h4
    omega
  rcases hO.fpr p0 c0 hmem with ⟨hp00, hc0st⟩ | ⟨gp, hp0, gc', hgc', hgcle⟩
  · subst hc0st
    exact ⟨0, ⟨WalkN.refl _ hsto, fun j _ => Nat.zero_le j⟩, hT.st0⟩
  · have hge : gc' = g0 := by
      rw [hg0] at hgc'
      injection hgc' with h2
      exact h2.symm
    have h1 : heuristic c c0 ≤ j := heuristic_le_walk hwcz
    have h2 : heuristic endC c ≤ heuristic endC c0 + heuristic c0 c :=
      heuristic_triangle _ _ _
    have h3 : heuristic c0 c = heuristic c c0 := heuristic_comm _ _
    have hkg : k ≤ g0 := hk.2 g0 hwg0
    have hg0k : g0 = k := by omega
    exact ⟨k, hk, by rw [hg0, hg0k]⟩

theorem foldRelax_invO {g : Grid} {startC endC current : Cell} {X : Finset Cell} {cc : Nat} :
    ∀ (ds : List Cell), (∀ d ∈ ds, d ∈ nbrDirs) →
      ∀ (s s' : AState),
      List.foldlM (fun st d => relaxOne endC current st d) s ds = some s' →
      InvT g startC s → dlookup current s.cost_so_far = some cc →
      InvO g startC endC X s →
      InvO g startC endC X s' ∧
        (∀ u gu, dlookup u s.cost_so_far = some gu →
          ∃ gu', dlookup u s'.cost_so_far = some gu' ∧ gu' ≤ gu) ∧
        (∀ c ∈ s.visited, dlookup c s'.cost_so_far = dlookup c s.cost_so_far) ∧
        (∀ d ∈ ds, isOpenIn g (current.1 + d.1, current.2 + d.2) = true →
          ∃ gu, dlookup (current.1 + d.1, current.2 + d.2) s'.cost_so_far = some gu ∧
            gu ≤ cc + 1) := by
  intro ds
  induction ds with
  | nil =>
    intro _ s s' h _ _ hO
    injection h with h
    subst h
    exact ⟨hO, fun u gu hu => ⟨gu, hu, le_rfl⟩, fun c _ => rfl, by simp⟩
  | cons d ds ih =>
    intro hds s s' h hT hcc hO
    rw [List.foldlM_cons] at h
    cases hr : relaxOne endC current s d with
    | none => rw [hr] at h; cases h
    | some s1 =>
      rw [hr] at h
      have hdmem := hds d (List.mem_cons_self _ _)
      obtain ⟨invT1, hcc1, _⟩ := relaxOne_invT hdmem hT hcc hr
      obtain ⟨hO1, hmono1, hfix1, hnbr1⟩ := relaxOne_invO hdmem hT hcc hO hr
      obtain ⟨hv1a, hv1, _⟩ := relaxOne_frame hr
      obtain ⟨hO', hmono', hfix', hnbr'⟩ :=
        ih (fun d2 hd2 => hds d2 (List.mem_cons_of_mem _ hd2)) s1 s' h invT1 hcc1 hO1
      refine ⟨hO', ?_, ?_, ?_⟩
      · intro u gu hu
        obtain ⟨gu1, hgu1, hle1⟩ := hmono1 u gu hu
        obtain ⟨gu', hgu', hle'⟩ := hmono' u gu1 hgu1
        exact ⟨gu', hgu', le_trans hle' hle1⟩
      · intro c hcv
        have hc1 : c ∈ s1.visited := by rw [hv1]; exact hcv
        rw [hfix' c hc1, hfix1 c hcv]
      · intro d0 hd0 hop0
        rcases List.mem_cons.mp hd0 with rfl | htl
        · obtain ⟨gu1, hgu1, hle1⟩ := hnbr1 hop0
          obtain ⟨gu', hgu', hle'⟩ := hmono' _ gu1 hgu1
          exact ⟨gu', hgu', le_trans hle' hle1⟩
        · exact hnbr' d0 htl hop0

theorem invO_init {g : Grid} {startC endC : Cell} (hsto : isOpenIn g startC = true) :
    InvO g startC endC ∅ (astarInit g startC) := by
  refine ⟨?_, ?_, ?_, ?_, ?_, ?_⟩
  · intro c gc h
    simp only [astarInit] at h
    by_cases hc : startC = c
    · rw [← hc, dlookup_dinsert_self] at h
      injection h with h
      subst h
      rw [← hc]
      exact WalkN.refl _ hsto
    · rw [dlookup_dinsert_ne _ _ hc] at h
      cases h
  · intro p c hmem
    simp only [astarInit, List.mem_singleton] at hmem
    have hp := congrArg Prod.fst hmem
    have hc := congrArg Prod.snd hmem
    dsimp only at hp hc
    exact Or.inl ⟨hp, hc⟩
  · intro u gu h
    simp only [astarInit] at h
    by_cases hc : startC = u
    · refine Or.inr (Or.inr (Or.inr ⟨hc.symm, ?_⟩))
      simp [astarInit]
    · rw [dlookup_dinsert_ne _ _ hc] at h
      cases h
  · intro c hc
    simp only [astarInit] at hc
    exact absurd hc (Finset.not_mem_empty _)
  · intro c hc
    simp only [astarInit] at hc
    exact absurd hc (Finset.not_mem_empty _)
  · simp only [astarInit]
    exact Finset.not_mem_empty _

theorem invO_pop {g : Grid} {startC endC : Cell} {s : AState} {p0 : Nat} {c0 : Cell}
    {rest : List (Nat × Cell)} (hO : InvO g startC endC ∅ s)
    (hrest : rest = s.frontier.erase (p0, c0)) :
    InvO g startC endC {c0} { s with frontier := rest } := by
  refine ⟨hO.walkTo, ?_, ?_, hO.visOpt, hO.visNbr, hO.envis⟩
  · intro p c hmem
    dsimp only at hmem
    rw [hrest] at hmem
    exact hO.fpr p c (List.mem_of_mem_erase hmem)
  · intro u gu h
    rcases hO.entryFor u gu h with h1 | h1 | h1 | h1
    · exact Or.inl h1
    · exact absurd h1 (Finset.not_mem_empty _)
    · by_cases hc : u = c0
      · exact Or.inr (Or.inl (by rw [hc]; exact Finset.mem_singleton_self _))
      · refine Or.inr (Or.inr (Or.inl ?_))
        show (gu + heuristic endC u, u) ∈ rest
        rw [hrest]
        exact (List.mem_erase_of_ne
          (fun he => hc (congrArg Prod.snd he))).mpr h1
    · by_cases hpe : ((0 : Nat), startC) = (p0, c0)
      · have hc0 : startC = c0 := congrArg Prod.snd hpe
        exact Or.inr (Or.inl (by rw [h1.1, hc0]; exact Finset.mem_singleton_self _))
      · refine Or.inr (Or.inr (Or.inr ⟨h1.1, ?_⟩))
        show ((0 : Nat), startC) ∈ rest
        rw [hrest]
        exact (List.mem_erase_of_ne hpe).mpr h1.2

theorem invO_mark {g : Grid} {startC endC : Cell} {s s1 : AState} {c0 : Cell} {k : Nat}
    {Y : Finset Cell}
    (hO1 : InvO g startC endC {c0} s1)
    (hvis : s1.visited = s.visited)
    (hkd : IsDist g startC c0 k)
    (hcc1 : dlookup c0 s1.cost_so_far = some k)
    (hfix : ∀ c ∈ s.visited, dlookup c s1.cost_so_far = dlookup c s.cost_so_far)
    (hOs : InvO g startC endC Y s)
    (hmono : ∀ u gu, dlookup u s.cost_so_far = some gu →
      ∃ gu', dlookup u s1.cost_so_far = some gu' ∧ gu' ≤ gu)
    (hnbr : ∀ d ∈ nbrDirs, isOpenIn g (c0.1 + d.1, c0.2 + d.2) = true →
      ∃ gu, dlookup (c0.1 + d.1, c0.2 + d.2) s1.cost_so_far = some gu ∧ gu ≤ k + 1)
    (hend : c0 ≠ endC) (sn : List Snap) :
    InvO g startC endC ∅
      { s1 with visited := insert c0 s1.visited, snaps := sn } := by
  refine ⟨hO1.walkTo, hO1.fpr, ?_, ?_, ?_, ?_⟩
  · intro u gu h
    rcases hO1.entryFor u gu h with h1 | h1 | h1 | h1
    · exact Or.inl (Finset.mem_insert_of_mem h1)
    · exact Or.inl (by rw [Finset.mem_singleton.mp h1]; exact Finset.mem_insert_self _ _)
    · exact Or.inr (Or.inr (Or.inl h1))
    · exact Or.inr (Or.inr (Or.inr h1))
  · intro c hc
    rcases Finset.mem_insert.mp hc with rfl | hc1
    · exact ⟨k, hkd, hcc1⟩
    · have hc1' : c ∈ s.visited := hvis ▸ hc1
      obtain ⟨k', hk', hck'⟩ := hOs.visOpt c hc1'
      exact ⟨k', hk', by rw [hfix c hc1']; exact hck'⟩
  · intro c hc d hd hop
    rcases Finset.mem_insert.mp hc with rfl | hc1
    · obtain ⟨gu, hgu, hle⟩ := hnbr d hd hop
      exact ⟨k, gu, hcc1, hgu, hle⟩
    · have hc1' : c ∈ s.visited := hvis ▸ hc1
      obtain ⟨gc, gu, hgc, hgu, hle⟩ := hOs.visNbr c hc1' d hd hop
      obtain ⟨gu', hgu', hle'⟩ := hmono _ gu hgu
      exact ⟨gc, gu', by rw [hfix c hc1']; exact hgc, hgu', by omega⟩
  · intro hmem
    rcases Finset.mem_insert.mp hmem with h1 | h1
    · exact hend h1.symm
    · exact hOs.envis (hvis ▸ h1)

theorem astarLoop_opt {g : Grid} {startC endC : Cell} (hsto : isOpenIn g startC = true) :
    ∀ (fuel : Nat) (s : AState), InvT g startC s → InvO g startC endC ∅ s →
      phiSum g startC s.cost_so_far + s.frontier.length < fuel →
      ∃ s', astarLoop endC fuel s = some s' ∧ InvT g startC s' ∧
        (ReachableIn g startC endC →
          ∃ k, IsDist g startC endC k ∧ dlookup endC s'.cost_so_far = some k) := by
  intro fuel
  induction fuel with
  | zero => intro s _ _ hlt; omega
  | succ fuel ih =>
    intro s hT hO hlt
    cases hp : heapPop s.frontier with
    | none =>
      refine ⟨s, by simp only [astarLoop, hp], hT, ?_⟩
      intro hreach
      obtain ⟨k, hk⟩ := exists_isDist hreach
      obtain ⟨p, c, i, j, hmem, _, _, _⟩ := cover hT hO hk.1 hO.envis
      rw [(heapPop_none_iff _).mp hp] at hmem
      exact absurd hmem (List.not_mem_nil _)
    | some pr =>
      obtain ⟨e, rest⟩ := pr
      obtain ⟨hemem, hrest⟩ := heapPop_mem hp
      have hmin := heapPop_min hp
      have hemem' : (e.1, e.2) ∈ s.frontier := by rw [Prod.mk.eta]; exact hemem
      have hmin' : ∀ x ∈ s.frontier, entryLe (e.1, e.2) x = true := by
        intro x hx
        rw [Prod.mk.eta]
        exact hmin x hx
      have hsub : ∀ x ∈ rest, x ∈ s.frontier := by
        rw [hrest]
        exact fun x hx => List.mem_of_mem_erase hx
      have hTpop : InvT g startC { s with frontier := rest } := invT_set_frontier hT hsub
      have hOpop : InvO g startC endC {e.2} { s with frontier := rest } :=
        invO_pop hO (by rw [Prod.mk.eta]; exact hrest)
      by_cases hend : e.2 = endC
      · obtain ⟨k, hk, hck⟩ :=
          pop_optimal hsto hT hO hemem' hmin' (by rw [hend]; exact hO.envis)
        rw [hend] at hk hck
        refine ⟨{ s with frontier := rest },
          by simp only [astarLoop, hp, if_pos hend], hTpop, ?_⟩
        intro _
        exact ⟨k, hk, hck⟩
      · obtain ⟨cc, hcc⟩ := hT.fkeys e.1 e.2 hemem'
        have hoptc : ∃ kc, IsDist g startC e.2 kc ∧
            dlookup e.2 s.cost_so_far = some kc := by
          by_cases hv : e.2 ∈ s.visited
          · exact hO.visOpt e.2 hv
          · exact pop_optimal hsto hT hO hemem' hmin' hv
        obtain ⟨kc, hkc, hckc⟩ := hoptc
        have hcck : cc = kc := by
          rw [hcc] at hckc
          injection hckc with h2
        obtain ⟨s1, hfold, hT1, hcc1, hmu1⟩ :=
          foldRelax_invT nbrDirs (fun d hd => hd) { s with frontier := rest } hTpop hcc
        obtain ⟨hO1, hmono1, hfix1, hnbr1⟩ :=
          foldRelax_invO nbrDirs (fun d hd => hd) { s with frontier := rest } s1
            hfold hTpop hcc hOpop
        obtain ⟨_, hv1, _⟩ := foldRelax_frame nbrDirs { s with frontier := rest } s1 hfold
        have hfold' : relaxAll endC e.2 { s with frontier := rest } = some s1 := hfold
        have hcc1' : dlookup e.2 s1.cost_so_far = some kc := by rw [← hcck]; exact hcc1
        have hnbr1' : ∀ d ∈ nbrDirs, isOpenIn g (e.2.1 + d.1, e.2.2 + d.2) = true →
            ∃ gu, dlookup (e.2.1 + d.1, e.2.2 + d.2) s1.cost_so_far = some gu ∧
              gu ≤ kc + 1 := by
          intro d hd hop
          obtain ⟨gu, hgu, hle⟩ := hnbr1 d hd hop
          exact ⟨gu, hgu, by omega⟩
        have hO2 : InvO g startC endC ∅
            { s1 with
              visited := insert e.2 s1.visited,
              snaps := s1.snaps ++ [⟨insert e.2 s1.visited, s1.frontier, none⟩] } :=
          invO_mark hO1 hv1 hkc hcc1' hfix1 hOpop hmono1 hnbr1' hend _
        have hT2 : InvT g startC
            { s1 with
              visited := insert e.2 s1.visited,
              snaps := s1.snaps ++ [⟨insert e.2 s1.visited, s1.frontier, none⟩] } :=
          invT_set_vs hT1 _ _
        have hlen : rest.length = s.frontier.length - 1 := by
          rw [hrest]
          exact List.length_erase_of_mem hemem
        have hlenpos : 0 < s.frontier.length := List.length_pos_of_mem hemem
        have hmu2 : phiSum g startC s1.cost_so_far + s1.frontier.length < fuel := by
          have := hmu1
          dsimp only at this
          omega
        obtain ⟨s', hloop, hT', hdist⟩ := ih _ hT2 hO2 hmu2
        exact ⟨s', by simp only [astarLoop, hp, if_neg hend, hfold']; exact hloop,
          hT', hdist⟩

theorem astarSearch_opt {g : Grid} {startC endC : Cell}
    (hsto : isOpenIn g startC = true) (hreach : ReachableIn g startC endC) :
    ∃ s' k, astarSearch g startC endC = some s' ∧ InvT g startC s' ∧
      IsDist g startC endC k ∧ dlookup endC s'.cost_so_far = some k := by
  obtain ⟨s', hh, hT', hr⟩ :=
    astarLoop_opt hsto (loopFuel g) (astarInit g startC)
      (invT_init g startC) (invO_init hsto)
      (by
        have h1 : phiSum g startC (astarInit g startC).cost_so_far ≤
            costBound g * costBound g := by
          apply phiSum_le
          intro c v h
          simp only [astarInit] at h
          by_cases hc : startC = c
          · rw [← hc, dlookup_dinsert_self] at h
            injection h with h
            omega
          · rw [dlookup_dinsert_ne _ _ hc] at h
            cases h
        have h2 : (astarInit g startC).frontier.length = 1 := rfl
        unfold loopFuel
        omega)
  obtain ⟨k, hk, hck⟩ := hr hreach
  exact ⟨s', k, hh, hT', hk, hck⟩

theorem walkN_cons {g : Grid} {y b : Cell} {n : Nat} (hw : WalkN g y b n) :
    ∀ {x : Cell}, unitAdj x y → isOpenIn g x = true → WalkN g x b (n + 1) := by
  induction hw with
  | refl ha =>
    intro x hadj hx
    exact WalkN.tail (WalkN.refl x hx) hadj ha
  | tail hw2 hadj2 hoc2 ih =>
    intro x hadj hx
    exact WalkN.tail (ih hadj hx) hadj2 hoc2

theorem walkN_of_list {g : Grid} :
    ∀ {q : List Cell} {a b : Cell}, q.head? = some a → q.getLast? = some b →
      List.Chain' unitAdj q → (∀ c ∈ q, isOpenIn g c = true) →
      WalkN g a b (q.length - 1) := by
  intro q
  induction q with
  | nil => intro a b h _ _ _; cases h
  | cons x t ih =>
    intro a b hh hl hch hop
    have hxa : x = a := by
      rw [List.head?_cons] at hh
      injection hh with h2
    subst hxa
    cases t with
    | nil =>
      have hxb : x = b := by
        have h0 : ([x] : List Cell).getLast? = some x := rfl
        rw [h0] at hl
        injection hl with h2
      subst hxb
      simpa using WalkN.refl x (hop x (List.mem_singleton_self _))
    | cons y t2 =>
      have hadj : unitAdj x y := (List.chain'_cons.mp hch).1
      have hch2 : List.Chain' unitAdj (y :: t2) := (List.chain'_cons.mp hch).2
      have hl2 : (y :: t2).getLast? = some b := by
        rw [← hl, List.getLast?_cons_cons]
      have hw := ih rfl hl2 hch2 (fun c hc => hop c (List.mem_cons_of_mem _ hc))
      have hw1 : WalkN g y b t2.length := by simpa using hw
      have hw2 : WalkN g x b (t2.length + 1) :=
        walkN_cons hw1 hadj (hop x (List.mem_cons_self _ _))
      simpa using hw2

theorem reconLoop_path {g : Grid} {startC : Cell} {s : AState} (inv : InvT g startC s)
    (hsto : isOpenIn g startC = true) :
    ∀ (fuel : Nat) (cur : Cell) (gc : Nat), dlookup cur s.cost_so_far = some gc →
      gc < fuel →
      ∀ (path : List Cell) (snaps : List Snap),
      ∃ L snaps',
        reconLoop s.came_from startC s.visited s.frontier fuel cur path snaps =
          some (path ++ L, snaps') ∧
        L.length ≤ gc ∧
        WalkN g startC cur L.length ∧
        List.Chain' unitAdj (startC :: L.reverse) ∧
        (startC :: L.reverse).getLast? = some cur ∧
        (∀ c ∈ startC :: L.reverse, isOpenIn g c = true) := by
  intro fuel
  induction fuel with
  | zero => intro cur gc _ h0 _ _; omega
  | succ fuel ih =>
    intro cur gc hgc hlt path snaps
    by_cases hcs : cur = startC
    · subst hcs
      refine ⟨[], snaps, ?_, ?_, WalkN.refl _ hsto, by simp, by simp, ?_⟩
      · simp [reconLoop]
      · exact Nat.zero_le _
      · intro c hc
        have hc2 : c = cur := by simpa using hc
        rw [hc2]
        exact hsto
    · obtain ⟨p, gp, hcfp, hcp, hplt, hadj, hoc⟩ := inv.chain cur gc hgc hcs
      have hj : (dlookup cur s.came_from).join = some p := by rw [hcfp]; rfl
      obtain ⟨L', snaps', hrec, hlen', hwalk', hchain', hlast', hopen'⟩ :=
        ih p gp hcp (by omega) (path ++ [cur])
          (snaps ++ [⟨s.visited, s.frontier, some (path ++ [cur])⟩])
      refine ⟨cur :: L', snaps', ?_, ?_, ?_, ?_, ?_, ?_⟩
      · simp only [reconLoop, if_neg hcs, hj]
        rw [hrec, List.append_assoc]
        rfl
      · simp only [List.length_cons]
        omega
      · rw [List.length_cons]
        exact hwalk'.tail hadj hoc
      · rw [List.reverse_cons, ← List.cons_append]
        refine List.chain'_append.mpr ⟨hchain', List.chain'_singleton _, ?_⟩
        intro u hu v hv
        rw [hlast', Option.mem_def] at hu
        injection hu with hu
        rw [List.head?_cons, Option.mem_def] at hv
        injection hv with hv
        rw [← hu, ← hv]
        exact hadj
      · rw [List.reverse_cons, ← List.cons_append]
        exact List.getLast?_concat _
      · intro c hc
        rw [List.reverse_cons, ← List.cons_append] at hc
        rcases List.mem_append.mp hc with h1 | h1
        · exact hopen' c h1
        · rw [List.mem_singleton.mp h1]
          exact hoc

/-- C2: for every grid and every pair `(start, end)` with `end` reachable
from `start` through 4-connected Open cells, `PathFinder.astar` succeeds
and its final snapshot carries a path that starts at `start`, ends at
`end`, steps only between 4-adjacent Open cells, and whose length is
`k + 1` cells where `k` is the breadth-first shortest-path distance
(minimum number of unit moves) between `start` and `end`; consequently no
valid Open path between the pair has fewer cells. -/
theorem astar_shortest_path {g : Grid} {startC endC : Cell}
    (hreach : ReachableIn g startC endC) :
    ∃ snaps final p k, astar g startC endC = some snaps ∧
      snaps.getLast? = some final ∧ final.path = some p ∧
      IsDist g startC endC k ∧ p.length = k + 1 ∧
      p.head? = some startC ∧ p.getLast? = some endC ∧
      List.Chain' unitAdj p ∧ (∀ c ∈ p, isOpenIn g c = true) ∧
      (∀ q : List Cell, q.head? = some startC → q.getLast? = some endC →
        List.Chain' unitAdj q → (∀ c ∈ q, isOpenIn g c = true) →
        p.length ≤ q.length) := by
  obtain ⟨n0, hw0⟩ := hreach
  have hsto : isOpenIn g startC = true := walkN_open_src hw0
  obtain ⟨s', k, hsearch, hT', hk, hck⟩ := astarSearch_opt hsto ⟨n0, hw0⟩
  have hkfuel : k < reconFuel g := by
    have h1 := hT'.bnd endC k hck
    have h2 : (dkeys s'.cost_so_far).card ≤ (univCells g startC).card :=
      Finset.card_le_card hT'.keysSub
    have h3 := card_univCells_le g startC
    unfold reconFuel
    omega
  obtain ⟨L, rsnaps, hrec, hLle, hLwalk, hLchain, hLlast, hLopen⟩ :=
    reconLoop_path hT' hsto (reconFuel g) endC k hck hkfuel [] []
  have hk2 : k ≤ L.length := hk.2 _ hLwalk
  have hLk : L.length = k := by omega
  have hrev : (L ++ [startC]).reverse = startC :: L.reverse := by
    rw [List.reverse_append]
    rfl
  refine ⟨s'.snaps ++ rsnaps ++
      [⟨s'.visited, s'.frontier, some ((L ++ [startC]).reverse)⟩],
    ⟨s'.visited, s'.frontier, some ((L ++ [startC]).reverse)⟩,
    (L ++ [startC]).reverse, k, ?_, List.getLast?_concat _, rfl, hk, ?_, ?_, ?_, ?_,
    ?_, ?_⟩
  · simp only [astar, hsearch]
    rw [show (([] : List Cell) ++ L) = L from rfl] at hrec
    rw [hrec]
  · rw [hrev]
    simp only [List.length_cons, List.length_reverse]
    omega
  · rw [hrev]
    rfl
  · rw [hrev]
    exact hLlast
  · rw [hrev]
    exact hLchain
  · rw [hrev]
    exact hLopen
  · intro q hqh hql hqc hqo
    have hqw := walkN_of_list hqh hql hqc hqo
    have hq1 : 1 ≤ q.length := by
      cases q with
      | nil => cases hqh
      | cons a t => simp
    have hle := hk.2 _ hqw
    rw [hrev]
    simp only [List.length_cons, List.length_reverse]
    omega

/-- C2 witness: on the 1×2 all-Open grid with `start = (0,0)` and
`end = (1,0)` (reachable in one move) the theorem applies and yields the
two-cell shortest path. -/
theorem astar_shortest_path_witness :
    ReachableIn [[0, 0]] (0, 0) (1, 0) ∧
      (∃ snaps final p k, astar [[0, 0]] (0, 0) (1, 0) = some snaps ∧
        snaps.getLast? = some final ∧ final.path = some p ∧
        IsDist [[0, 0]] (0, 0) (1, 0) k ∧ p.length = k + 1 ∧
        p.head? = some (0, 0) ∧ p.getLast? = some (1, 0) ∧
        List.Chain' unitAdj p ∧ (∀ c ∈ p, isOpenIn [[0, 0]] c = true) ∧
        (∀ q : List Cell, q.head? = some (0, 0) → q.getLast? = some (1, 0) →
          List.Chain' unitAdj q → (∀ c ∈ q, isOpenIn [[0, 0]] c = true) →
          p.length ≤ q.length)) :=
  ⟨⟨1, WalkN.tail (WalkN.refl (0, 0) (by decide)) (by decide) (by decide)⟩,
    astar_shortest_path
      ⟨1, WalkN.tail (WalkN.refl (0, 0) (by decide)) (by decide) (by decide)⟩⟩
